import Mathlib

/-!
Shallow embedding of the lockable LRU cache from codebling/go-lockable_lru
(file thread_unsafe_llru.go, the complete version that defines
AddOrUpdateUnlocked, AddOrUpdateLocked, Lock, Unlock, Get, Contains, Len,
Values, RemoveOldest, ReplaceOldestKey and ReplaceOldestValue).

The cache owns two pools sharing one capacity budget `size`:
- `unlocked`: a hashicorp/golang-lru v2 cache, modelled as a list of
  key/value pairs ordered oldest (least recently touched) first, together
  with its own capacity bound;
- `locked`: a wk8/go-ordered-map v2 ordered map, modelled as a list of
  key/value pairs in insertion order (oldest insertion first).

Go `int` sizes are modelled as `Int` (overflow is irrelevant here: sizes
only move by one per operation). Fallible construction returns `Option`.
-/

set_option linter.unusedSectionVars false

namespace LLRU

variable {K V : Type} [DecidableEq K] [Inhabited K] [Inhabited V]

/-- Keys of an association list, in list order. -/
def keysOf (es : List (K × V)) : List K := es.map Prod.fst

/-- Lookup in an association list (first matching key wins), as in a Go map. -/
def lookupKV (k : K) : List (K × V) → Option V
  | [] => none
  | p :: rest => if p.1 = k then some p.2 else lookupKV k rest

/-- Membership test on the keys of an association list. -/
def containsKV (k : K) : List (K × V) → Bool
  | [] => false
  | p :: rest => if p.1 = k then true else containsKV k rest

/-- Removal of a key from an association list (Go map / ordered-map Delete,
LRU Remove). Keys are unique in every reachable store, so removing every
occurrence coincides with removing the one occurrence. -/
def removeKV (k : K) : List (K × V) → List (K × V)
  | [] => []
  | p :: rest => if p.1 = k then removeKV k rest else p :: removeKV k rest

/-- wk8 OrderedMap.Set: update the value in place if the key is present
(keeping its position in insertion order), otherwise append at the end. -/
def omapSet (es : List (K × V)) (k : K) (v : V) : List (K × V) :=
  if containsKV k es then es.map (fun p => if p.1 = k then (k, v) else p)
  else es ++ [(k, v)]

/-- hashicorp/golang-lru v2 Cache: entries ordered oldest first, newest
last, plus the capacity bound (Go field `size`). -/
structure LRUCache (K V : Type) where
  entries : List (K × V)
  size : Int

/-- Cache.GetOldest: the least recently used entry, if any. Does not mutate. -/
def LRUCache.getOldest (c : LRUCache K V) : Option (K × V) := c.entries.head?

/-- Cache.Contains: membership without touching recency. -/
def LRUCache.containsKey (c : LRUCache K V) (k : K) : Bool := containsKV k c.entries

/-- Cache.Add: if the key is present, update its value and promote it to
most recent, no eviction. Otherwise insert as most recent; if the length
then exceeds the bound, remove the single oldest entry and report `true`. -/
def LRUCache.add (c : LRUCache K V) (k : K) (v : V) : LRUCache K V × Bool :=
  if containsKV k c.entries then
    (⟨removeKV k c.entries ++ [(k, v)], c.size⟩, false)
  else if ((c.entries.length : Int) + 1) > c.size then
    (⟨(c.entries ++ [(k, v)]).drop 1, c.size⟩, true)
  else
    (⟨c.entries ++ [(k, v)], c.size⟩, false)

/-- Cache.Get: on a hit, promote the entry to most recent and return its
value; on a miss, leave the cache unchanged. -/
def LRUCache.get (c : LRUCache K V) (k : K) : LRUCache K V × Option V :=
  match lookupKV k c.entries with
  | none => (c, none)
  | some v => (⟨removeKV k c.entries ++ [(k, v)], c.size⟩, some v)

/-- Cache.Remove: drop the key if present, report whether it was there. -/
def LRUCache.remove (c : LRUCache K V) (k : K) : LRUCache K V × Bool :=
  (⟨removeKV k c.entries, c.size⟩, containsKV k c.entries)

/-- Cache.Resize: evict max(length - newSize, 0) oldest entries, set the
bound to newSize, and report how many entries were evicted. -/
def LRUCache.resize (c : LRUCache K V) (s : Int) : LRUCache K V × Nat :=
  (⟨c.entries.drop ((c.entries.length : Int) - s).toNat, s⟩,
   ((c.entries.length : Int) - s).toNat)

/-- Cache.RemoveOldest: remove and return the least recently used entry. -/
def LRUCache.removeOldest (c : LRUCache K V) : LRUCache K V × Option (K × V) :=
  match c.entries with
  | [] => (c, none)
  | p :: rest => (⟨rest, c.size⟩, some p)

/-- Cache.Values: values from oldest to newest. -/
def LRUCache.values (c : LRUCache K V) : List V := c.entries.map Prod.snd

/-- Return value describing an evicted or relocated item. -/
structure Entry (K V : Type) where
  Key : K
  Value : V

/-- The cache aggregate: unlocked LRU pool, locked ordered map, and the
total capacity fixed at construction. -/
structure ThreadunsafeLLRU (K V : Type) where
  unlocked : LRUCache K V
  locked : List (K × V)
  size : Int

/-- NewUnsafe: construction fails on a non-positive capacity (the inner
LRU constructor demands a positive size); otherwise both pools start
empty and the unlocked bound starts at the full capacity. -/
def NewUnsafe (size : Int) : Option (ThreadunsafeLLRU K V) :=
  if size ≤ 0 then none else some ⟨⟨[], size⟩, [], size⟩

/-- Source helper addOrUpdate: snapshot the oldest entry, Add, and if the
Add evicted, return that snapshot (Go zero values if the LRU was empty). -/
def addOrUpdate (lru : LRUCache K V) (key : K) (value : V) :
    LRUCache K V × Option (Entry K V) :=
  let oldest := lru.getOldest
  let r := lru.add key value
  if r.2 then
    (r.1, some ⟨(oldest.getD (default, default)).1, (oldest.getD (default, default)).2⟩)
  else (r.1, none)

/-- Source helper resize: snapshot the oldest entry, Resize, and if at
least one entry was evicted, return that snapshot (the oldest evictee). -/
def resize (lru : LRUCache K V) (size : Int) : LRUCache K V × Option (Entry K V) :=
  let oldest := lru.getOldest
  let r := LRUCache.resize lru size
  if r.2 > 0 then
    (r.1, some ⟨(oldest.getD (default, default)).1, (oldest.getD (default, default)).2⟩)
  else (r.1, none)

/-- Source helper collectValues: values of the ordered map from oldest
insertion to newest insertion. -/
def collectValues (m : List (K × V)) : List V := m.map Prod.snd

/-- AddOrUpdateUnlocked: delete the key from the locked pool, check room
against the total capacity, and on room resize the unlocked bound to
capacity minus the locked count before inserting as most recent. -/
def AddOrUpdateUnlocked (llru : ThreadunsafeLLRU K V) (key : K) (value : V) :
    ThreadunsafeLLRU K V × Bool × Option (Entry K V) :=
  let locked1 := removeKV key llru.locked
  if ((locked1.length : Int) < llru.size) then
    let u1 := (LRUCache.resize llru.unlocked (llru.size - locked1.length)).1
    let r := addOrUpdate u1 key value
    (⟨r.1, locked1, llru.size⟩, true, r.2)
  else
    (⟨llru.unlocked, locked1, llru.size⟩, false, none)

/-- AddOrUpdateLocked: delete the key from the locked pool, check room,
and on room remove the key from the unlocked pool, insert it into the
locked pool, then shrink the unlocked bound to capacity minus the new
locked count (possibly evicting the oldest unlocked entry). -/
def AddOrUpdateLocked (llru : ThreadunsafeLLRU K V) (key : K) (value : V) :
    ThreadunsafeLLRU K V × Bool × Option (Entry K V) :=
  let locked1 := removeKV key llru.locked
  if ((locked1.length : Int) < llru.size) then
    let u1 := (llru.unlocked.remove key).1
    let locked2 := omapSet locked1 key value
    let r := resize u1 (llru.size - locked2.length)
    (⟨r.1, locked2, llru.size⟩, true, r.2)
  else
    (⟨llru.unlocked, locked1, llru.size⟩, false, none)

/-- Lock: on an unlocked key, move it to the locked pool and shrink the
unlocked bound; on a locked key, report true; otherwise false. -/
def Lock (llru : ThreadunsafeLLRU K V) (key : K) : ThreadunsafeLLRU K V × Bool :=
  let g := llru.unlocked.get key
  match g.2 with
  | none => (⟨g.1, llru.locked, llru.size⟩, (lookupKV key llru.locked).isSome)
  | some value =>
    let u1 := (g.1.remove key).1
    let locked2 := omapSet llru.locked key value
    let u2 := (resize u1 (llru.size - locked2.length)).1
    (⟨u2, locked2, llru.size⟩, true)

/-- Unlock: on a locked key, delete it, grow the unlocked bound, then add
the key to the unlocked pool as most recent; on an unlocked key, the
lookup itself promotes it to most recent; otherwise false. -/
def Unlock (llru : ThreadunsafeLLRU K V) (key : K) : ThreadunsafeLLRU K V × Bool :=
  match lookupKV key llru.locked with
  | none =>
    let g := llru.unlocked.get key
    (⟨g.1, llru.locked, llru.size⟩, g.2.isSome)
  | some value =>
    let locked1 := removeKV key llru.locked
    let u1 := (resize llru.unlocked (llru.size - locked1.length)).1
    let u2 := (u1.add key value).1
    (⟨u2, locked1, llru.size⟩, true)

/-- Get: a locked hit returns the value without touching anything; an
unlocked hit promotes the entry to most recent; a miss returns nothing. -/
def Get (llru : ThreadunsafeLLRU K V) (key : K) : ThreadunsafeLLRU K V × Option V :=
  match lookupKV key llru.locked with
  | some v => (llru, some v)
  | none =>
    let g := llru.unlocked.get key
    (⟨g.1, llru.locked, llru.size⟩, g.2)

/-- Contains: membership in either pool, no recency change. -/
def Contains (llru : ThreadunsafeLLRU K V) (key : K) : Bool :=
  if llru.unlocked.containsKey key then true else (lookupKV key llru.locked).isSome

/-- Len: locked count plus unlocked count. -/
def Len (llru : ThreadunsafeLLRU K V) : Nat :=
  llru.locked.length + llru.unlocked.entries.length

/-- Values: unlocked values oldest to newest, then locked values in
insertion order. -/
def Values (llru : ThreadunsafeLLRU K V) : List V :=
  llru.unlocked.values ++ collectValues llru.locked

/-- RemoveOldest: remove and return the least recently used unlocked
entry, if any; locked entries are never candidates. -/
def RemoveOldest (llru : ThreadunsafeLLRU K V) : ThreadunsafeLLRU K V × Option (Entry K V) :=
  let r := llru.unlocked.removeOldest
  match r.2 with
  | some p => (⟨r.1, llru.locked, llru.size⟩, some ⟨p.1, p.2⟩)
  | none => (⟨r.1, llru.locked, llru.size⟩, none)

/-- ReplaceOldestKey: fail if newKey exists anywhere or no unlocked entry
exists; otherwise remove the oldest unlocked entry and re-insert its
value under newKey through AddOrUpdateUnlocked. -/
def ReplaceOldestKey (llru : ThreadunsafeLLRU K V) (newKey : K) :
    ThreadunsafeLLRU K V × Option V × Option K × Bool :=
  if !(Contains llru newKey) then
    let r := llru.unlocked.removeOldest
    match r.2 with
    | some p =>
      let a := AddOrUpdateUnlocked ⟨r.1, llru.locked, llru.size⟩ newKey p.2
      (a.1, some p.2, some p.1, a.2.1)
    | none => (⟨r.1, llru.locked, llru.size⟩, none, none, false)
  else (llru, none, none, false)

/-- ReplaceOldestValue: fail if no unlocked entry exists; otherwise remove
the oldest unlocked entry and re-insert newValue under the same key
through AddOrUpdateUnlocked. -/
def ReplaceOldestValue (llru : ThreadunsafeLLRU K V) (newValue : V) :
    ThreadunsafeLLRU K V × Option V × Option K × Bool :=
  let r := llru.unlocked.removeOldest
  match r.2 with
  | some p =>
    let a := AddOrUpdateUnlocked ⟨r.1, llru.locked, llru.size⟩ p.1 newValue
    (a.1, some p.2, some p.1, a.2.1)
  | none => (⟨r.1, llru.locked, llru.size⟩, none, none, false)

/-! ### Association list lemmas -/

@[simp]
theorem keysOf_nil : keysOf ([] : List (K × V)) = [] := rfl

@[simp]
theorem keysOf_cons (p : K × V) (es : List (K × V)) :
    keysOf (p :: es) = p.1 :: keysOf es := rfl

@[simp]
theorem lookupKV_nil (j : K) : lookupKV j ([] : List (K × V)) = none := rfl

theorem lookupKV_cons (j : K) (p : K × V) (rest : List (K × V)) :
    lookupKV j (p :: rest) = if p.1 = j then some p.2 else lookupKV j rest := rfl

@[simp]
theorem removeKV_nil (k : K) : removeKV k ([] : List (K × V)) = [] := rfl

theorem removeKV_cons (k : K) (p : K × V) (rest : List (K × V)) :
    removeKV k (p :: rest) =
      if p.1 = k then removeKV k rest else p :: removeKV k rest := rfl

@[simp]
theorem containsKV_nil (k : K) : containsKV k ([] : List (K × V)) = false := rfl

theorem containsKV_cons (k : K) (p : K × V) (rest : List (K × V)) :
    containsKV k (p :: rest) = if p.1 = k then true else containsKV k rest := rfl

@[simp]
theorem keysOf_append (es es' : List (K × V)) :
    keysOf (es ++ es') = keysOf es ++ keysOf es' := by
  simp [keysOf]

theorem containsKV_eq_true_iff (k : K) (es : List (K × V)) :
    containsKV k es = true ↔ k ∈ keysOf es := by
  induction es with
  | nil => simp [containsKV]
  | cons p rest ih =>
    by_cases h : p.1 = k
    · simp [containsKV, h]
    · simp [containsKV, h, ih, Ne.symm h]

theorem containsKV_eq_false_iff (k : K) (es : List (K × V)) :
    containsKV k es = false ↔ k ∉ keysOf es := by
  rw [← containsKV_eq_true_iff]
  cases containsKV k es <;> simp

theorem lookupKV_isSome_iff (k : K) (es : List (K × V)) :
    (lookupKV k es).isSome = true ↔ k ∈ keysOf es := by
  induction es with
  | nil => simp [lookupKV]
  | cons p rest ih =>
    by_cases h : p.1 = k
    · simp [lookupKV, h]
    · simp [lookupKV, h, ih, Ne.symm h]

theorem lookupKV_eq_none_iff (k : K) (es : List (K × V)) :
    lookupKV k es = none ↔ k ∉ keysOf es := by
  rw [← lookupKV_isSome_iff]
  cases lookupKV k es <;> simp

theorem mem_keysOf_of_lookupKV (k : K) (v : V) (es : List (K × V))
    (h : lookupKV k es = some v) : k ∈ keysOf es := by
  rw [← lookupKV_isSome_iff, h]
  rfl

theorem lookupKV_append (j : K) (es es' : List (K × V)) :
    lookupKV j (es ++ es') = (lookupKV j es).or (lookupKV j es') := by
  induction es with
  | nil => simp [lookupKV]
  | cons p rest ih =>
    by_cases h : p.1 = j
    · simp [lookupKV, h]
    · simp [lookupKV, h, ih]

theorem mem_keysOf_removeKV (j k : K) (es : List (K × V)) :
    j ∈ keysOf (removeKV k es) ↔ j ∈ keysOf es ∧ j ≠ k := by
  induction es with
  | nil => simp
  | cons p rest ih =>
    by_cases h : p.1 = k
    · rw [removeKV_cons, if_pos h, ih]
      simp only [keysOf_cons, List.mem_cons]
      constructor
      · rintro ⟨hm, hne⟩
        exact ⟨Or.inr hm, hne⟩
      · rintro ⟨hm | hm, hne⟩
        · exact absurd (hm.trans h) hne
        · exact ⟨hm, hne⟩
    · rw [removeKV_cons, if_neg h]
      simp only [keysOf_cons, List.mem_cons, ih]
      constructor
      · rintro (hj | ⟨hm, hne⟩)
        · exact ⟨Or.inl hj, fun he => h (hj.symm.trans he)⟩
        · exact ⟨Or.inr hm, hne⟩
      · rintro ⟨hj | hm, hne⟩
        · exact Or.inl hj
        · exact Or.inr ⟨hm, hne⟩

theorem not_mem_keysOf_removeKV (k : K) (es : List (K × V)) :
    k ∉ keysOf (removeKV k es) := by
  intro h
  exact ((mem_keysOf_removeKV k k es).mp h).2 rfl

theorem removeKV_eq_self (k : K) (es : List (K × V)) (h : k ∉ keysOf es) :
    removeKV k es = es := by
  induction es with
  | nil => rfl
  | cons p rest ih =>
    simp only [keysOf_cons, List.mem_cons] at h
    push_neg at h
    have h1 : ¬ p.1 = k := fun he => h.1 he.symm
    rw [removeKV_cons, if_neg h1, ih h.2]

theorem length_removeKV_le (k : K) (es : List (K × V)) :
    (removeKV k es).length ≤ es.length := by
  induction es with
  | nil => simp [removeKV]
  | cons p rest ih =>
    by_cases h : p.1 = k <;> simp [removeKV, h] <;> omega

theorem length_removeKV_add_one (k : K) (es : List (K × V))
    (hnd : (keysOf es).Nodup) (hm : k ∈ keysOf es) :
    (removeKV k es).length + 1 = es.length := by
  induction es with
  | nil => simp at hm
  | cons p rest ih =>
    simp only [keysOf_cons, List.nodup_cons] at hnd
    simp only [keysOf_cons, List.mem_cons] at hm
    by_cases h : p.1 = k
    · have : k ∉ keysOf rest := h ▸ hnd.1
      simp [removeKV, h, removeKV_eq_self k rest this]
    · rcases hm with hm | hm
      · exact absurd hm.symm h
      · simp only [removeKV, if_neg h, List.length_cons]
        rw [← ih hnd.2 hm]

theorem nodup_keysOf_removeKV (k : K) (es : List (K × V))
    (hnd : (keysOf es).Nodup) : (keysOf (removeKV k es)).Nodup := by
  induction es with
  | nil => simp [removeKV]
  | cons p rest ih =>
    simp only [keysOf_cons, List.nodup_cons] at hnd
    by_cases h : p.1 = k
    · simp only [removeKV, if_pos h]
      exact ih hnd.2
    · simp only [removeKV, if_neg h, keysOf_cons, List.nodup_cons]
      refine ⟨fun hmem => ?_, ih hnd.2⟩
      exact hnd.1 ((mem_keysOf_removeKV p.1 k rest).mp hmem).1

theorem lookupKV_removeKV (j k : K) (es : List (K × V)) :
    lookupKV j (removeKV k es) = if j = k then none else lookupKV j es := by
  induction es with
  | nil => simp
  | cons p rest ih =>
    by_cases h : p.1 = k
    · by_cases hjk : j = k
      · rw [removeKV_cons, if_pos h, ih, if_pos hjk, if_pos hjk]
      · have hpj : ¬ p.1 = j := fun he => hjk (he.symm.trans h)
        rw [removeKV_cons, if_pos h, ih, if_neg hjk, if_neg hjk,
          lookupKV_cons, if_neg hpj]
    · by_cases hpj : p.1 = j
      · have hjk : ¬ j = k := fun he => h (hpj.trans he)
        rw [removeKV_cons, if_neg h, lookupKV_cons, if_pos hpj, if_neg hjk,
          lookupKV_cons, if_pos hpj]
      · rw [removeKV_cons, if_neg h, lookupKV_cons, if_neg hpj, ih]
        by_cases hjk : j = k
        · rw [if_pos hjk, if_pos hjk]
        · rw [if_neg hjk, if_neg hjk, lookupKV_cons, if_neg hpj]

theorem removeKV_append (k : K) (es es' : List (K × V)) :
    removeKV k (es ++ es') = removeKV k es ++ removeKV k es' := by
  induction es with
  | nil => simp [removeKV]
  | cons p rest ih =>
    by_cases h : p.1 = k <;> simp [removeKV, h, ih]

theorem removeKV_removeKV (k : K) (es : List (K × V)) :
    removeKV k (removeKV k es) = removeKV k es :=
  removeKV_eq_self k (removeKV k es) (not_mem_keysOf_removeKV k es)

theorem nodup_keysOf_append_one (k : K) (v : V) (es : List (K × V))
    (hnd : (keysOf es).Nodup) (h : k ∉ keysOf es) :
    (keysOf (es ++ [(k, v)])).Nodup := by
  simp only [keysOf_append, keysOf_cons, keysOf_nil]
  simp [List.nodup_append, hnd, h]

theorem mem_keysOf_append_one (j k : K) (v : V) (es : List (K × V)) :
    j ∈ keysOf (es ++ [(k, v)]) ↔ j ∈ keysOf es ∨ j = k := by
  simp [keysOf_append]

theorem lookupKV_append_one_self (k : K) (v : V) (es : List (K × V))
    (h : k ∉ keysOf es) : lookupKV k (es ++ [(k, v)]) = some v := by
  rw [lookupKV_append, (lookupKV_eq_none_iff k es).mpr h]
  simp [lookupKV]

theorem omapSet_append (es : List (K × V)) (k : K) (v : V)
    (h : k ∉ keysOf es) : omapSet es k v = es ++ [(k, v)] := by
  simp [omapSet, (containsKV_eq_false_iff k es).mpr h]

theorem keysOf_drop_sublist (es : List (K × V)) (n : Nat) :
    List.Sublist (keysOf (es.drop n)) (keysOf es) :=
  List.Sublist.map Prod.fst (List.drop_sublist n es)

theorem mem_keysOf_drop (j : K) (es : List (K × V)) (n : Nat)
    (h : j ∈ keysOf (es.drop n)) : j ∈ keysOf es :=
  (keysOf_drop_sublist es n).subset h

theorem nodup_keysOf_drop (es : List (K × V)) (n : Nat)
    (hnd : (keysOf es).Nodup) : (keysOf (es.drop n)).Nodup :=
  List.Nodup.sublist (keysOf_drop_sublist es n) hnd

/-! ### LRU cache operation characterizations -/

theorem lruAdd_of_mem (c : LRUCache K V) (k : K) (v : V)
    (hk : containsKV k c.entries = true) :
    c.add k v = (⟨removeKV k c.entries ++ [(k, v)], c.size⟩, false) := by
  rw [LRUCache.add, if_pos hk]

theorem lruAdd_of_not_mem_le (c : LRUCache K V) (k : K) (v : V)
    (hk : containsKV k c.entries = false)
    (hle : (c.entries.length : Int) + 1 ≤ c.size) :
    c.add k v = (⟨c.entries ++ [(k, v)], c.size⟩, false) := by
  rw [LRUCache.add, if_neg (by simp [hk]), if_neg (by omega)]

theorem lruAdd_of_not_mem_gt (c : LRUCache K V) (k : K) (v : V)
    (hk : containsKV k c.entries = false)
    (hgt : (c.entries.length : Int) + 1 > c.size) :
    c.add k v = (⟨(c.entries ++ [(k, v)]).drop 1, c.size⟩, true) := by
  rw [LRUCache.add, if_neg (by simp [hk]), if_pos hgt]

theorem lruResize_of_le (c : LRUCache K V) (m : Int)
    (h : (c.entries.length : Int) ≤ m) :
    LRUCache.resize c m = (⟨c.entries, m⟩, 0) := by
  have h0 : ((c.entries.length : Int) - m).toNat = 0 := by omega
  rw [LRUCache.resize, h0]
  simp

theorem lruResize_count_le (c : LRUCache K V) (m : Int) (h0 : 0 ≤ m) :
    (((LRUCache.resize c m).1.entries.length : Int)) ≤ m := by
  rw [LRUCache.resize]
  simp only [List.length_drop]
  omega

theorem lruGet_of_none (c : LRUCache K V) (k : K)
    (hk : lookupKV k c.entries = none) : c.get k = (c, none) := by
  rw [LRUCache.get, hk]

theorem lruGet_of_some (c : LRUCache K V) (k : K) (v : V)
    (hv : lookupKV k c.entries = some v) :
    c.get k = (⟨removeKV k c.entries ++ [(k, v)], c.size⟩, some v) := by
  rw [LRUCache.get, hv]

theorem lruRemove_eq (c : LRUCache K V) (k : K) :
    c.remove k = (⟨removeKV k c.entries, c.size⟩, containsKV k c.entries) := rfl

/-! ### Characterizations of the source helpers addOrUpdate and resize -/

theorem addOrUpdate_of_mem (c : LRUCache K V) (k : K) (v : V)
    (hk : containsKV k c.entries = true) :
    addOrUpdate c k v = (⟨removeKV k c.entries ++ [(k, v)], c.size⟩, none) := by
  rw [addOrUpdate, lruAdd_of_mem c k v hk]
  simp

theorem addOrUpdate_of_not_mem_le (c : LRUCache K V) (k : K) (v : V)
    (hk : containsKV k c.entries = false)
    (hle : (c.entries.length : Int) + 1 ≤ c.size) :
    addOrUpdate c k v = (⟨c.entries ++ [(k, v)], c.size⟩, none) := by
  rw [addOrUpdate, lruAdd_of_not_mem_le c k v hk hle]
  simp

theorem addOrUpdate_evict (c : LRUCache K V) (k : K) (v : V)
    (p : K × V) (rest : List (K × V))
    (hent : c.entries = p :: rest)
    (hk : containsKV k c.entries = false)
    (hgt : (c.entries.length : Int) + 1 > c.size) :
    addOrUpdate c k v = (⟨rest ++ [(k, v)], c.size⟩, some ⟨p.1, p.2⟩) := by
  rw [addOrUpdate, lruAdd_of_not_mem_gt c k v hk hgt]
  simp [LRUCache.getOldest, hent]

theorem resizeHelper_of_le (c : LRUCache K V) (m : Int)
    (h : (c.entries.length : Int) ≤ m) :
    resize c m = (⟨c.entries, m⟩, none) := by
  rw [resize, lruResize_of_le c m h]
  simp

theorem resizeHelper_evict_one (c : LRUCache K V) (m : Int)
    (p : K × V) (rest : List (K × V))
    (hent : c.entries = p :: rest)
    (hm : (c.entries.length : Int) = m + 1) :
    resize c m = (⟨rest, m⟩, some ⟨p.1, p.2⟩) := by
  have h1 : ((c.entries.length : Int) - m).toNat = 1 := by omega
  rw [resize, LRUCache.resize, h1]
  simp [LRUCache.getOldest, hent]

/-! ### The cache data invariant -/

/-- The data invariant of the cache: positive total capacity, nonnegative
unlocked bound, locked count plus unlocked bound equal to the capacity,
unlocked count within its bound, unique keys in each pool, and pools
disjoint. It holds in every reachable state. -/
structure Inv (s : ThreadunsafeLLRU K V) : Prop where
  size_pos : 1 ≤ s.size
  usize_nonneg : 0 ≤ s.unlocked.size
  cap_eq : (s.locked.length : Int) + s.unlocked.size = s.size
  count_le : (s.unlocked.entries.length : Int) ≤ s.unlocked.size
  nodupU : (keysOf s.unlocked.entries).Nodup
  nodupL : (keysOf s.locked).Nodup
  disj : ∀ j : K, j ∈ keysOf s.unlocked.entries → j ∉ keysOf s.locked

/-! ### Case characterizations of AddOrUpdateUnlocked -/

theorem addU_eq_pos (s : ThreadunsafeLLRU K V) (k : K) (v : V)
    (hroom : ((removeKV k s.locked).length : Int) < s.size) :
    AddOrUpdateUnlocked s k v =
      (⟨(addOrUpdate
            ((LRUCache.resize s.unlocked
              (s.size - ((removeKV k s.locked).length : Int))).1) k v).1,
        removeKV k s.locked, s.size⟩, true,
       (addOrUpdate
          ((LRUCache.resize s.unlocked
            (s.size - ((removeKV k s.locked).length : Int))).1) k v).2) := by
  simp only [AddOrUpdateUnlocked, if_pos hroom]

theorem addU_eq_neg (s : ThreadunsafeLLRU K V) (k : K) (v : V)
    (hroom : ¬ ((removeKV k s.locked).length : Int) < s.size) :
    AddOrUpdateUnlocked s k v = (⟨s.unlocked, removeKV k s.locked, s.size⟩, false, none) := by
  simp only [AddOrUpdateUnlocked, if_neg hroom]

/-- No-room path of AddOrUpdateUnlocked: in an invariant state this can
only happen when the key is in neither pool, and then nothing changes. -/
theorem addU_noRoom (s : ThreadunsafeLLRU K V) (k : K) (v : V) (h : Inv s)
    (hz : s.unlocked.size = 0) (hkL : k ∉ keysOf s.locked) :
    AddOrUpdateUnlocked s k v = (s, false, none) := by
  have hrm : removeKV k s.locked = s.locked := removeKV_eq_self k s.locked hkL
  have hfull : ¬ ((removeKV k s.locked).length : Int) < s.size := by
    rw [hrm]
    have := h.cap_eq
    omega
  rw [addU_eq_neg s k v hfull, hrm]

/-- Update of a key already unlocked: promoted to most recent, value
updated, no eviction, locked pool and both bounds untouched. -/
theorem addU_mem_unlocked (s : ThreadunsafeLLRU K V) (k : K) (v : V) (h : Inv s)
    (hk : k ∈ keysOf s.unlocked.entries) :
    AddOrUpdateUnlocked s k v =
      (⟨⟨removeKV k s.unlocked.entries ++ [(k, v)], s.unlocked.size⟩, s.locked, s.size⟩,
       true, none) := by
  have hkL : k ∉ keysOf s.locked := h.disj k hk
  have hrm : removeKV k s.locked = s.locked := removeKV_eq_self k s.locked hkL
  have hne : 1 ≤ s.unlocked.entries.length := by
    cases hes : s.unlocked.entries with
    | nil => rw [hes] at hk; simp at hk
    | cons p rest => simp [hes]
  have hroom : ((removeKV k s.locked).length : Int) < s.size := by
    rw [hrm]
    have := h.cap_eq
    have := h.count_le
    omega
  rw [addU_eq_pos s k v hroom, hrm]
  have hm : s.size - (s.locked.length : Int) = s.unlocked.size := by
    have := h.cap_eq
    omega
  rw [hm, lruResize_of_le s.unlocked s.unlocked.size h.count_le]
  have hk2 : containsKV k (⟨s.unlocked.entries, s.unlocked.size⟩ : LRUCache K V).entries = true :=
    (containsKV_eq_true_iff k s.unlocked.entries).mpr hk
  rw [addOrUpdate_of_mem _ k v hk2]

/-- Update of a key currently locked: it moves to the unlocked pool as
most recent, the locked pool shrinks by the key and the unlocked bound
grows by one, and no entry is evicted. -/
theorem addU_mem_locked (s : ThreadunsafeLLRU K V) (k : K) (v : V) (h : Inv s)
    (hkU : k ∉ keysOf s.unlocked.entries) (hkL : k ∈ keysOf s.locked) :
    AddOrUpdateUnlocked s k v =
      (⟨⟨s.unlocked.entries ++ [(k, v)], s.unlocked.size + 1⟩, removeKV k s.locked, s.size⟩,
       true, none) := by
  have hlen : ((removeKV k s.locked).length : Int) + 1 = s.locked.length := by
    have := length_removeKV_add_one k s.locked h.nodupL hkL
    omega
  have hroom : ((removeKV k s.locked).length : Int) < s.size := by
    have := h.cap_eq
    have := h.usize_nonneg
    omega
  rw [addU_eq_pos s k v hroom]
  have hm : s.size - ((removeKV k s.locked).length : Int) = s.unlocked.size + 1 := by
    have := h.cap_eq
    omega
  rw [hm, lruResize_of_le s.unlocked (s.unlocked.size + 1) (by have := h.count_le; omega)]
  have hk2 : containsKV k (⟨s.unlocked.entries, s.unlocked.size + 1⟩ : LRUCache K V).entries = false :=
    (containsKV_eq_false_iff k s.unlocked.entries).mpr hkU
  rw [addOrUpdate_of_not_mem_le _ k v hk2 (by have := h.count_le; simp; omega)]

/-- Fresh insert with spare room: appended as most recent, no eviction. -/
theorem addU_fresh_noevict (s : ThreadunsafeLLRU K V) (k : K) (v : V) (h : Inv s)
    (hkU : k ∉ keysOf s.unlocked.entries) (hkL : k ∉ keysOf s.locked)
    (hlt : (s.unlocked.entries.length : Int) + 1 ≤ s.unlocked.size) :
    AddOrUpdateUnlocked s k v =
      (⟨⟨s.unlocked.entries ++ [(k, v)], s.unlocked.size⟩, s.locked, s.size⟩,
       true, none) := by
  have hrm : removeKV k s.locked = s.locked := removeKV_eq_self k s.locked hkL
  have hroom : ((removeKV k s.locked).length : Int) < s.size := by
    rw [hrm]
    have := h.cap_eq
    omega
  rw [addU_eq_pos s k v hroom, hrm]
  have hm : s.size - (s.locked.length : Int) = s.unlocked.size := by
    have := h.cap_eq
    omega
  rw [hm, lruResize_of_le s.unlocked s.unlocked.size h.count_le]
  have hk2 : containsKV k (⟨s.unlocked.entries, s.unlocked.size⟩ : LRUCache K V).entries = false :=
    (containsKV_eq_false_iff k s.unlocked.entries).mpr hkU
  rw [addOrUpdate_of_not_mem_le _ k v hk2 (by simpa using hlt)]

/-- Fresh insert into a full unlocked pool: the single oldest unlocked
entry is evicted and returned. -/
theorem addU_fresh_evict (s : ThreadunsafeLLRU K V) (k : K) (v : V) (h : Inv s)
    (hkU : k ∉ keysOf s.unlocked.entries) (hkL : k ∉ keysOf s.locked)
    (p : K × V) (rest : List (K × V)) (hes : s.unlocked.entries = p :: rest)
    (hfull : (s.unlocked.entries.length : Int) = s.unlocked.size) :
    AddOrUpdateUnlocked s k v =
      (⟨⟨rest ++ [(k, v)], s.unlocked.size⟩, s.locked, s.size⟩,
       true, some ⟨p.1, p.2⟩) := by
  have hrm : removeKV k s.locked = s.locked := removeKV_eq_self k s.locked hkL
  have hroom : ((removeKV k s.locked).length : Int) < s.size := by
    rw [hrm]
    have := h.cap_eq
    have hne : 1 ≤ s.unlocked.entries.length := by simp [hes]
    omega
  rw [addU_eq_pos s k v hroom, hrm]
  have hm : s.size - (s.locked.length : Int) = s.unlocked.size := by
    have := h.cap_eq
    omega
  rw [hm, lruResize_of_le s.unlocked s.unlocked.size h.count_le]
  have hk2 : containsKV k (⟨s.unlocked.entries, s.unlocked.size⟩ : LRUCache K V).entries = false :=
    (containsKV_eq_false_iff k s.unlocked.entries).mpr hkU
  have hgt : ((⟨s.unlocked.entries, s.unlocked.size⟩ : LRUCache K V).entries.length : Int) + 1 >
      (⟨s.unlocked.entries, s.unlocked.size⟩ : LRUCache K V).size := by
    simp only []
    omega
  rw [addOrUpdate_evict _ k v p rest hes hk2 hgt]

/-! ### Case characterizations of AddOrUpdateLocked -/

theorem addL_eq_pos (s : ThreadunsafeLLRU K V) (k : K) (v : V)
    (hroom : ((removeKV k s.locked).length : Int) < s.size) :
    AddOrUpdateLocked s k v =
      (⟨(resize (s.unlocked.remove k).1
            (s.size - ((omapSet (removeKV k s.locked) k v).length : Int))).1,
        omapSet (removeKV k s.locked) k v, s.size⟩, true,
       (resize (s.unlocked.remove k).1
          (s.size - ((omapSet (removeKV k s.locked) k v).length : Int))).2) := by
  simp only [AddOrUpdateLocked, if_pos hroom]

theorem addL_eq_neg (s : ThreadunsafeLLRU K V) (k : K) (v : V)
    (hroom : ¬ ((removeKV k s.locked).length : Int) < s.size) :
    AddOrUpdateLocked s k v = (⟨s.unlocked, removeKV k s.locked, s.size⟩, false, none) := by
  simp only [AddOrUpdateLocked, if_neg hroom]

/-- No-room path of AddOrUpdateLocked: in an invariant state this can
only happen when the key is in neither pool, and then nothing changes. -/
theorem addL_noRoom (s : ThreadunsafeLLRU K V) (k : K) (v : V) (h : Inv s)
    (hz : s.unlocked.size = 0) (hkL : k ∉ keysOf s.locked) :
    AddOrUpdateLocked s k v = (s, false, none) := by
  have hrm : removeKV k s.locked = s.locked := removeKV_eq_self k s.locked hkL
  have hfull : ¬ ((removeKV k s.locked).length : Int) < s.size := by
    rw [hrm]
    have := h.cap_eq
    omega
  rw [addL_eq_neg s k v hfull, hrm]

/-- Locking a currently unlocked key by write: it leaves the unlocked
pool, is appended to the locked pool, the unlocked bound shrinks by one,
and no other entry is evicted. -/
theorem addL_mem_unlocked (s : ThreadunsafeLLRU K V) (k : K) (v : V) (h : Inv s)
    (hk : k ∈ keysOf s.unlocked.entries) :
    AddOrUpdateLocked s k v =
      (⟨⟨removeKV k s.unlocked.entries, s.unlocked.size - 1⟩,
        s.locked ++ [(k, v)], s.size⟩, true, none) := by
  have hkL : k ∉ keysOf s.locked := h.disj k hk
  have hrm : removeKV k s.locked = s.locked := removeKV_eq_self k s.locked hkL
  have hne : 1 ≤ s.unlocked.entries.length := by
    cases hes : s.unlocked.entries with
    | nil => rw [hes] at hk; simp at hk
    | cons p rest => simp [hes]
  have hroom : ((removeKV k s.locked).length : Int) < s.size := by
    rw [hrm]
    have := h.cap_eq
    have := h.count_le
    omega
  rw [addL_eq_pos s k v hroom, hrm, omapSet_append s.locked k v hkL]
  have hulen : ((removeKV k s.unlocked.entries).length : Int) + 1 =
      s.unlocked.entries.length := by
    have := length_removeKV_add_one k s.unlocked.entries h.nodupU hk
    omega
  have hm : s.size - ((s.locked ++ [(k, v)]).length : Int) = s.unlocked.size - 1 := by
    have := h.cap_eq
    simp
    omega
  rw [hm, lruRemove_eq s.unlocked k]
  have hle : (((⟨removeKV k s.unlocked.entries, s.unlocked.size⟩ : LRUCache K V).entries.length : Int)) ≤
      s.unlocked.size - 1 := by
    simp only []
    have := h.count_le
    omega
  rw [resizeHelper_of_le _ _ hle]

/-- Updating a key already locked: it is re-inserted at the end of the
locked insertion order with the new value; the unlocked pool keeps its
entries and bound, and nothing is evicted. -/
theorem addL_mem_locked (s : ThreadunsafeLLRU K V) (k : K) (v : V) (h : Inv s)
    (hkU : k ∉ keysOf s.unlocked.entries) (hkL : k ∈ keysOf s.locked) :
    AddOrUpdateLocked s k v =
      (⟨s.unlocked, removeKV k s.locked ++ [(k, v)], s.size⟩, true, none) := by
  have hlen : ((removeKV k s.locked).length : Int) + 1 = s.locked.length := by
    have := length_removeKV_add_one k s.locked h.nodupL hkL
    omega
  have hroom : ((removeKV k s.locked).length : Int) < s.size := by
    have := h.cap_eq
    have := h.usize_nonneg
    omega
  rw [addL_eq_pos s k v hroom,
    omapSet_append (removeKV k s.locked) k v (not_mem_keysOf_removeKV k s.locked),
    lruRemove_eq s.unlocked k, removeKV_eq_self k s.unlocked.entries hkU]
  have hm : s.size - (((removeKV k s.locked) ++ [(k, v)]).length : Int) = s.unlocked.size := by
    have := h.cap_eq
    simp
    omega
  rw [hm]
  have hle : (((⟨s.unlocked.entries, s.unlocked.size⟩ : LRUCache K V).entries.length : Int)) ≤
      s.unlocked.size := h.count_le
  rw [resizeHelper_of_le _ _ hle]

/-- Fresh locked insert with spare room in the unlocked pool: appended to
the locked pool, the unlocked bound shrinks by one, no eviction. -/
theorem addL_fresh_noevict (s : ThreadunsafeLLRU K V) (k : K) (v : V) (h : Inv s)
    (hkU : k ∉ keysOf s.unlocked.entries) (hkL : k ∉ keysOf s.locked)
    (hlt : (s.unlocked.entries.length : Int) + 1 ≤ s.unlocked.size) :
    AddOrUpdateLocked s k v =
      (⟨⟨s.unlocked.entries, s.unlocked.size - 1⟩,
        s.locked ++ [(k, v)], s.size⟩, true, none) := by
  have hrm : removeKV k s.locked = s.locked := removeKV_eq_self k s.locked hkL
  have hroom : ((removeKV k s.locked).length : Int) < s.size := by
    rw [hrm]
    have := h.cap_eq
    omega
  rw [addL_eq_pos s k v hroom, hrm, omapSet_append s.locked k v hkL,
    lruRemove_eq s.unlocked k, removeKV_eq_self k s.unlocked.entries hkU]
  have hm : s.size - ((s.locked ++ [(k, v)]).length : Int) = s.unlocked.size - 1 := by
    have := h.cap_eq
    simp
    omega
  rw [hm]
  have hle : (((⟨s.unlocked.entries, s.unlocked.size⟩ : LRUCache K V).entries.length : Int)) ≤
      s.unlocked.size - 1 := by
    simp only []
    omega
  rw [resizeHelper_of_le _ _ hle]

/-- Fresh locked insert when the unlocked pool is exactly full: shrinking
the unlocked bound evicts exactly the oldest unlocked entry. -/
theorem addL_fresh_evict (s : ThreadunsafeLLRU K V) (k : K) (v : V) (h : Inv s)
    (hkU : k ∉ keysOf s.unlocked.entries) (hkL : k ∉ keysOf s.locked)
    (p : K × V) (rest : List (K × V)) (hes : s.unlocked.entries = p :: rest)
    (hfull : (s.unlocked.entries.length : Int) = s.unlocked.size) :
    AddOrUpdateLocked s k v =
      (⟨⟨rest, s.unlocked.size - 1⟩, s.locked ++ [(k, v)], s.size⟩,
       true, some ⟨p.1, p.2⟩) := by
  have hrm : removeKV k s.locked = s.locked := removeKV_eq_self k s.locked hkL
  have hne : 1 ≤ s.unlocked.entries.length := by simp [hes]
  have hroom : ((removeKV k s.locked).length : Int) < s.size := by
    rw [hrm]
    have := h.cap_eq
    omega
  rw [addL_eq_pos s k v hroom, hrm, omapSet_append s.locked k v hkL,
    lruRemove_eq s.unlocked k, removeKV_eq_self k s.unlocked.entries hkU]
  have hm : s.size - ((s.locked ++ [(k, v)]).length : Int) = s.unlocked.size - 1 := by
    have := h.cap_eq
    simp
    omega
  rw [hm]
  have hlen : (((⟨s.unlocked.entries, s.unlocked.size⟩ : LRUCache K V).entries.length : Int)) =
      (s.unlocked.size - 1) + 1 := by
    simp only []
    omega
  rw [resizeHelper_evict_one _ _ p rest hes hlen]

/-! ### Case characterizations of Lock, Unlock, Get, RemoveOldest -/

theorem removeKV_append_self (k : K) (v : V) (es : List (K × V)) :
    removeKV k (es ++ [(k, v)]) = removeKV k es := by
  rw [removeKV_append]
  simp [removeKV_cons]

/-- Lock on an unlocked key: the entry moves to the end of the locked
insertion order, leaves the unlocked pool, and the unlocked bound shrinks
by exactly one without evicting anything. -/
theorem lock_mem_unlocked (s : ThreadunsafeLLRU K V) (k : K) (v : V) (h : Inv s)
    (hv : lookupKV k s.unlocked.entries = some v) :
    Lock s k =
      (⟨⟨removeKV k s.unlocked.entries, s.unlocked.size - 1⟩,
        s.locked ++ [(k, v)], s.size⟩, true) := by
  have hk : k ∈ keysOf s.unlocked.entries := mem_keysOf_of_lookupKV k v _ hv
  have hkL : k ∉ keysOf s.locked := h.disj k hk
  have hulen : ((removeKV k s.unlocked.entries).length : Int) + 1 =
      s.unlocked.entries.length := by
    have := length_removeKV_add_one k s.unlocked.entries h.nodupU hk
    omega
  simp only [Lock, lruGet_of_some s.unlocked k v hv, lruRemove_eq,
    omapSet_append s.locked k v hkL]
  rw [removeKV_append_self, removeKV_removeKV]
  have hm : s.size - ((s.locked ++ [(k, v)]).length : Int) = s.unlocked.size - 1 := by
    have := h.cap_eq
    simp
    omega
  rw [hm]
  have hle : (((⟨removeKV k s.unlocked.entries, s.unlocked.size⟩ : LRUCache K V).entries.length : Int)) ≤
      s.unlocked.size - 1 := by
    simp only []
    have := h.count_le
    omega
  rw [resizeHelper_of_le _ _ hle]

/-- Lock on an already locked key: true, no state change. -/
theorem lock_mem_locked (s : ThreadunsafeLLRU K V) (k : K)
    (hkU : lookupKV k s.unlocked.entries = none) (hkL : k ∈ keysOf s.locked) :
    Lock s k = (s, true) := by
  simp only [Lock, lruGet_of_none s.unlocked k hkU]
  have : (lookupKV k s.locked).isSome = true := (lookupKV_isSome_iff k s.locked).mpr hkL
  rw [this]

/-- Lock on an absent key: false, no state change. -/
theorem lock_absent (s : ThreadunsafeLLRU K V) (k : K)
    (hkU : lookupKV k s.unlocked.entries = none) (hkL : k ∉ keysOf s.locked) :
    Lock s k = (s, false) := by
  simp only [Lock, lruGet_of_none s.unlocked k hkU]
  rw [(lookupKV_eq_none_iff k s.locked).mpr hkL]
  rfl

/-- Unlock on a locked key: the entry leaves the locked pool, the
unlocked bound grows by one first, and the entry is appended to the
unlocked pool as most recent without evicting anything. -/
theorem unlock_mem_locked (s : ThreadunsafeLLRU K V) (k : K) (v : V) (h : Inv s)
    (hv : lookupKV k s.locked = some v) :
    Unlock s k =
      (⟨⟨s.unlocked.entries ++ [(k, v)], s.unlocked.size + 1⟩,
        removeKV k s.locked, s.size⟩, true) := by
  have hkL : k ∈ keysOf s.locked := mem_keysOf_of_lookupKV k v _ hv
  have hkU : k ∉ keysOf s.unlocked.entries := fun hm => h.disj k hm hkL
  have hlen : ((removeKV k s.locked).length : Int) + 1 = s.locked.length := by
    have := length_removeKV_add_one k s.locked h.nodupL hkL
    omega
  simp only [Unlock, hv]
  have hm : s.size - ((removeKV k s.locked).length : Int) = s.unlocked.size + 1 := by
    have := h.cap_eq
    omega
  rw [hm, resizeHelper_of_le s.unlocked (s.unlocked.size + 1) (by have := h.count_le; omega)]
  have hk2 : containsKV k (⟨s.unlocked.entries, s.unlocked.size + 1⟩ : LRUCache K V).entries = false :=
    (containsKV_eq_false_iff k s.unlocked.entries).mpr hkU
  rw [lruAdd_of_not_mem_le _ k v hk2 (by have := h.count_le; simp; omega)]

/-- Unlock on a key that is already unlocked: the lookup promotes it to
most recent and reports true. -/
theorem unlock_mem_unlocked (s : ThreadunsafeLLRU K V) (k : K) (v : V)
    (hkL : lookupKV k s.locked = none)
    (hv : lookupKV k s.unlocked.entries = some v) :
    Unlock s k =
      (⟨⟨removeKV k s.unlocked.entries ++ [(k, v)], s.unlocked.size⟩,
        s.locked, s.size⟩, true) := by
  simp only [Unlock, hkL, lruGet_of_some s.unlocked k v hv]
  rfl

/-- Unlock on an absent key: false, no state change. -/
theorem unlock_absent (s : ThreadunsafeLLRU K V) (k : K)
    (hkL : lookupKV k s.locked = none)
    (hkU : lookupKV k s.unlocked.entries = none) :
    Unlock s k = (s, false) := by
  simp only [Unlock, hkL, lruGet_of_none s.unlocked k hkU]
  rfl

/-- Get on a locked key: the value, and the state is untouched. -/
theorem get_mem_locked (s : ThreadunsafeLLRU K V) (k : K) (v : V)
    (hv : lookupKV k s.locked = some v) :
    Get s k = (s, some v) := by
  simp only [Get, hv]

/-- Get on an unlocked key: the value, and the entry is promoted to most
recent; nothing enters or leaves the cache. -/
theorem get_mem_unlocked (s : ThreadunsafeLLRU K V) (k : K) (v : V)
    (hkL : lookupKV k s.locked = none)
    (hv : lookupKV k s.unlocked.entries = some v) :
    Get s k =
      (⟨⟨removeKV k s.unlocked.entries ++ [(k, v)], s.unlocked.size⟩,
        s.locked, s.size⟩, some v) := by
  simp only [Get, hkL, lruGet_of_some s.unlocked k v hv]

/-- Get on an absent key: no value, no state change. -/
theorem get_absent (s : ThreadunsafeLLRU K V) (k : K)
    (hkL : lookupKV k s.locked = none)
    (hkU : lookupKV k s.unlocked.entries = none) :
    Get s k = (s, none) := by
  simp only [Get, hkL, lruGet_of_none s.unlocked k hkU]

/-- RemoveOldest on a nonempty unlocked pool removes its head. -/
theorem removeOldest_cons (s : ThreadunsafeLLRU K V)
    (p : K × V) (rest : List (K × V)) (hes : s.unlocked.entries = p :: rest) :
    RemoveOldest s =
      (⟨⟨rest, s.unlocked.size⟩, s.locked, s.size⟩, some ⟨p.1, p.2⟩) := by
  simp only [RemoveOldest, LRUCache.removeOldest, hes]

/-- RemoveOldest on an empty unlocked pool changes nothing. -/
theorem removeOldest_nil (s : ThreadunsafeLLRU K V)
    (hes : s.unlocked.entries = []) :
    RemoveOldest s = (s, none) := by
  simp only [RemoveOldest, LRUCache.removeOldest, hes]

/-! ### Preservation of the invariant -/

theorem lookupKV_exists (k : K) (es : List (K × V)) (h : k ∈ keysOf es) :
    ∃ v, lookupKV k es = some v := by
  have := (lookupKV_isSome_iff k es).mpr h
  exact Option.isSome_iff_exists.mp this

theorem inv_NewUnsafe (size : Int) (s : ThreadunsafeLLRU K V)
    (h : NewUnsafe size = some s) : Inv s := by
  rw [NewUnsafe] at h
  by_cases hz : size ≤ 0
  · rw [if_pos hz] at h
    exact absurd h (by simp)
  · rw [if_neg hz] at h
    cases h
    push_neg at hz
    refine ⟨?_, ?_, ?_, ?_, by simp, by simp, ?_⟩
    · show (1 : Int) ≤ size
      omega
    · show (0 : Int) ≤ size
      omega
    · show ((([] : List (K × V)).length : Int)) + size = size
      simp
    · show ((([] : List (K × V)).length : Int)) ≤ size
      simp
      omega
    · intro j hj
      simp at hj

theorem inv_AddOrUpdateUnlocked (s : ThreadunsafeLLRU K V) (k : K) (v : V)
    (h : Inv s) : Inv (AddOrUpdateUnlocked s k v).1 := by
  by_cases hkU : k ∈ keysOf s.unlocked.entries
  · rw [addU_mem_unlocked s k v h hkU]
    have hulen := length_removeKV_add_one k s.unlocked.entries h.nodupU hkU
    have hcle := h.count_le
    refine ⟨h.size_pos, h.usize_nonneg, h.cap_eq, ?_, ?_, h.nodupL, ?_⟩
    · show ((removeKV k s.unlocked.entries ++ [(k, v)]).length : Int) ≤ s.unlocked.size
      simp only [List.length_append, List.length_cons, List.length_nil]
      push_cast
      omega
    · exact nodup_keysOf_append_one k v _ (nodup_keysOf_removeKV k _ h.nodupU)
        (not_mem_keysOf_removeKV k _)
    · intro j hj
      have hj2 : j ∈ keysOf (removeKV k s.unlocked.entries ++ [(k, v)]) := hj
      rw [mem_keysOf_append_one] at hj2
      rcases hj2 with hj2 | rfl
      · exact h.disj j ((mem_keysOf_removeKV j k _).mp hj2).1
      · exact h.disj j hkU
  · by_cases hkL : k ∈ keysOf s.locked
    · rw [addU_mem_locked s k v h hkU hkL]
      have hllen := length_removeKV_add_one k s.locked h.nodupL hkL
      have hcle := h.count_le
      refine ⟨h.size_pos, ?_, ?_, ?_, ?_, ?_, ?_⟩
      · show (0 : Int) ≤ s.unlocked.size + 1
        have := h.usize_nonneg
        omega
      · show ((removeKV k s.locked).length : Int) + (s.unlocked.size + 1) = s.size
        have := h.cap_eq
        push_cast
        omega
      · show ((s.unlocked.entries ++ [(k, v)]).length : Int) ≤ s.unlocked.size + 1
        simp only [List.length_append, List.length_cons, List.length_nil]
        push_cast
        omega
      · exact nodup_keysOf_append_one k v _ h.nodupU hkU
      · exact nodup_keysOf_removeKV k _ h.nodupL
      · intro j hj
        have hj2 : j ∈ keysOf (s.unlocked.entries ++ [(k, v)]) := hj
        rw [mem_keysOf_append_one] at hj2
        intro hmem
        have hmem2 := (mem_keysOf_removeKV j k s.locked).mp hmem
        rcases hj2 with hj2 | rfl
        · exact h.disj j hj2 hmem2.1
        · exact hmem2.2 rfl
    · by_cases hfit : (s.unlocked.entries.length : Int) + 1 ≤ s.unlocked.size
      · rw [addU_fresh_noevict s k v h hkU hkL hfit]
        refine ⟨h.size_pos, h.usize_nonneg, h.cap_eq, ?_, ?_, h.nodupL, ?_⟩
        · show ((s.unlocked.entries ++ [(k, v)]).length : Int) ≤ s.unlocked.size
          simp only [List.length_append, List.length_cons, List.length_nil]
          push_cast
          omega
        · exact nodup_keysOf_append_one k v _ h.nodupU hkU
        · intro j hj
          have hj2 : j ∈ keysOf (s.unlocked.entries ++ [(k, v)]) := hj
          rw [mem_keysOf_append_one] at hj2
          rcases hj2 with hj2 | rfl
          · exact h.disj j hj2
          · exact hkL
      · by_cases husz : s.unlocked.size = 0
        · rw [addU_noRoom s k v h husz hkL]
          exact h
        · have hfull : (s.unlocked.entries.length : Int) = s.unlocked.size := by
            have := h.count_le
            omega
          have hpos : 1 ≤ s.unlocked.entries.length := by
            have := h.usize_nonneg
            omega
          cases hes : s.unlocked.entries with
          | nil => rw [hes] at hpos; simp at hpos
          | cons p rest =>
            rw [addU_fresh_evict s k v h hkU hkL p rest hes hfull]
            have hrl : s.unlocked.entries.length = rest.length + 1 := by simp [hes]
            refine ⟨h.size_pos, h.usize_nonneg, h.cap_eq, ?_, ?_, h.nodupL, ?_⟩
            · show ((rest ++ [(k, v)]).length : Int) ≤ s.unlocked.size
              simp only [List.length_append, List.length_cons, List.length_nil]
              push_cast
              omega
            · have hnd : (keysOf rest).Nodup := by
                have := h.nodupU
                rw [hes] at this
                exact (List.nodup_cons.mp this).2
              have hknr : k ∉ keysOf rest := by
                intro hmem
                exact hkU (by rw [hes]; exact List.mem_cons_of_mem _ hmem)
              exact nodup_keysOf_append_one k v _ hnd hknr
            · intro j hj
              have hj2 : j ∈ keysOf (rest ++ [(k, v)]) := hj
              rw [mem_keysOf_append_one] at hj2
              rcases hj2 with hj2 | rfl
              · exact h.disj j (by rw [hes]; exact List.mem_cons_of_mem _ hj2)
              · exact hkL

theorem inv_AddOrUpdateLocked (s : ThreadunsafeLLRU K V) (k : K) (v : V)
    (h : Inv s) : Inv (AddOrUpdateLocked s k v).1 := by
  by_cases hkU : k ∈ keysOf s.unlocked.entries
  · rw [addL_mem_unlocked s k v h hkU]
    have hkL : k ∉ keysOf s.locked := h.disj k hkU
    have hulen := length_removeKV_add_one k s.unlocked.entries h.nodupU hkU
    have hcle := h.count_le
    refine ⟨h.size_pos, ?_, ?_, ?_, ?_, ?_, ?_⟩
    · show 0 ≤ s.unlocked.size - 1
      omega
    · show ((s.locked ++ [(k, v)]).length : Int) + (s.unlocked.size - 1) = s.size
      have := h.cap_eq
      simp only [List.length_append, List.length_cons, List.length_nil]
      push_cast
      omega
    · show ((removeKV k s.unlocked.entries).length : Int) ≤ s.unlocked.size - 1
      push_cast
      omega
    · exact nodup_keysOf_removeKV k _ h.nodupU
    · exact nodup_keysOf_append_one k v _ h.nodupL hkL
    · intro j hj
      have hj2 := (mem_keysOf_removeKV j k s.unlocked.entries).mp hj
      intro hmem
      rw [mem_keysOf_append_one] at hmem
      rcases hmem with hmem | rfl
      · exact h.disj j hj2.1 hmem
      · exact hj2.2 rfl
  · by_cases hkL : k ∈ keysOf s.locked
    · rw [addL_mem_locked s k v h hkU hkL]
      have hllen := length_removeKV_add_one k s.locked h.nodupL hkL
      refine ⟨h.size_pos, h.usize_nonneg, ?_, h.count_le, h.nodupU, ?_, ?_⟩
      · show (((removeKV k s.locked) ++ [(k, v)]).length : Int) + s.unlocked.size = s.size
        have := h.cap_eq
        simp only [List.length_append, List.length_cons, List.length_nil]
        push_cast
        omega
      · exact nodup_keysOf_append_one k v _ (nodup_keysOf_removeKV k _ h.nodupL)
          (not_mem_keysOf_removeKV k _)
      · intro j hj
        intro hmem
        rw [mem_keysOf_append_one] at hmem
        rcases hmem with hmem | rfl
        · exact h.disj j hj ((mem_keysOf_removeKV j k s.locked).mp hmem).1
        · exact hkU hj
    · by_cases hfit : (s.unlocked.entries.length : Int) + 1 ≤ s.unlocked.size
      · rw [addL_fresh_noevict s k v h hkU hkL hfit]
        refine ⟨h.size_pos, ?_, ?_, ?_, h.nodupU, ?_, ?_⟩
        · show (0 : Int) ≤ s.unlocked.size - 1
          omega
        · show ((s.locked ++ [(k, v)]).length : Int) + (s.unlocked.size - 1) = s.size
          have := h.cap_eq
          simp only [List.length_append, List.length_cons, List.length_nil]
          push_cast
          omega
        · show ((s.unlocked.entries.length : Int)) ≤ s.unlocked.size - 1
          omega
        · exact nodup_keysOf_append_one k v _ h.nodupL hkL
        · intro j hj
          intro hmem
          rw [mem_keysOf_append_one] at hmem
          rcases hmem with hmem | rfl
          · exact h.disj j hj hmem
          · exact hkU hj
      · by_cases husz : s.unlocked.size = 0
        · rw [addL_noRoom s k v h husz hkL]
          exact h
        · have hfull : (s.unlocked.entries.length : Int) = s.unlocked.size := by
            have := h.count_le
            omega
          have hpos : 1 ≤ s.unlocked.entries.length := by
            have := h.usize_nonneg
            omega
          cases hes : s.unlocked.entries with
          | nil => rw [hes] at hpos; simp at hpos
          | cons p rest =>
            rw [addL_fresh_evict s k v h hkU hkL p rest hes hfull]
            have hrl : s.unlocked.entries.length = rest.length + 1 := by simp [hes]
            have hnd : (keysOf rest).Nodup := by
              have := h.nodupU
              rw [hes] at this
              exact (List.nodup_cons.mp this).2
            refine ⟨h.size_pos, ?_, ?_, ?_, hnd, ?_, ?_⟩
            · show (0 : Int) ≤ s.unlocked.size - 1
              omega
            · show ((s.locked ++ [(k, v)]).length : Int) + (s.unlocked.size - 1) = s.size
              have := h.cap_eq
              simp only [List.length_append, List.length_cons, List.length_nil]
              push_cast
              omega
            · show ((rest.length : Int)) ≤ s.unlocked.size - 1
              omega
            · exact nodup_keysOf_append_one k v _ h.nodupL hkL
            · intro j hj
              have hjm : j ∈ keysOf s.unlocked.entries := by
                rw [hes]
                exact List.mem_cons_of_mem _ hj
              intro hmem
              rw [mem_keysOf_append_one] at hmem
              rcases hmem with hmem | rfl
              · exact h.disj j hjm hmem
              · exact hkU hjm

theorem inv_Lock (s : ThreadunsafeLLRU K V) (k : K) (h : Inv s) :
    Inv (Lock s k).1 := by
  cases hg : lookupKV k s.unlocked.entries with
  | none =>
    by_cases hkL : k ∈ keysOf s.locked
    · rw [lock_mem_locked s k hg hkL]
      exact h
    · rw [lock_absent s k hg hkL]
      exact h
  | some v =>
    rw [lock_mem_unlocked s k v h hg]
    have hk : k ∈ keysOf s.unlocked.entries := mem_keysOf_of_lookupKV k v _ hg
    have hkL : k ∉ keysOf s.locked := h.disj k hk
    have hulen := length_removeKV_add_one k s.unlocked.entries h.nodupU hk
    have hcle := h.count_le
    refine ⟨h.size_pos, ?_, ?_, ?_, ?_, ?_, ?_⟩
    · show (0 : Int) ≤ s.unlocked.size - 1
      omega
    · show ((s.locked ++ [(k, v)]).length : Int) + (s.unlocked.size - 1) = s.size
      have := h.cap_eq
      simp only [List.length_append, List.length_cons, List.length_nil]
      push_cast
      omega
    · show ((removeKV k s.unlocked.entries).length : Int) ≤ s.unlocked.size - 1
      push_cast
      omega
    · exact nodup_keysOf_removeKV k _ h.nodupU
    · exact nodup_keysOf_append_one k v _ h.nodupL hkL
    · intro j hj
      have hj2 := (mem_keysOf_removeKV j k s.unlocked.entries).mp hj
      intro hmem
      rw [mem_keysOf_append_one] at hmem
      rcases hmem with hmem | rfl
      · exact h.disj j hj2.1 hmem
      · exact hj2.2 rfl

theorem inv_Unlock (s : ThreadunsafeLLRU K V) (k : K) (h : Inv s) :
    Inv (Unlock s k).1 := by
  cases hg : lookupKV k s.locked with
  | some v =>
    rw [unlock_mem_locked s k v h hg]
    have hkL : k ∈ keysOf s.locked := mem_keysOf_of_lookupKV k v _ hg
    have hkU : k ∉ keysOf s.unlocked.entries := fun hm => h.disj k hm hkL
    have hllen := length_removeKV_add_one k s.locked h.nodupL hkL
    have hcle := h.count_le
    refine ⟨h.size_pos, ?_, ?_, ?_, ?_, ?_, ?_⟩
    · show (0 : Int) ≤ s.unlocked.size + 1
      have := h.usize_nonneg
      omega
    · show ((removeKV k s.locked).length : Int) + (s.unlocked.size + 1) = s.size
      have := h.cap_eq
      push_cast
      omega
    · show ((s.unlocked.entries ++ [(k, v)]).length : Int) ≤ s.unlocked.size + 1
      simp only [List.length_append, List.length_cons, List.length_nil]
      push_cast
      omega
    · exact nodup_keysOf_append_one k v _ h.nodupU hkU
    · exact nodup_keysOf_removeKV k _ h.nodupL
    · intro j hj
      have hj2 : j ∈ keysOf (s.unlocked.entries ++ [(k, v)]) := hj
      rw [mem_keysOf_append_one] at hj2
      intro hmem
      have hmem2 := (mem_keysOf_removeKV j k s.locked).mp hmem
      rcases hj2 with hj2 | rfl
      · exact h.disj j hj2 hmem2.1
      · exact hmem2.2 rfl
  | none =>
    cases hu : lookupKV k s.unlocked.entries with
    | none =>
      rw [unlock_absent s k hg hu]
      exact h
    | some v =>
      rw [unlock_mem_unlocked s k v hg hu]
      have hk : k ∈ keysOf s.unlocked.entries := mem_keysOf_of_lookupKV k v _ hu
      have hulen := length_removeKV_add_one k s.unlocked.entries h.nodupU hk
      have hcle := h.count_le
      refine ⟨h.size_pos, h.usize_nonneg, h.cap_eq, ?_, ?_, h.nodupL, ?_⟩
      · show ((removeKV k s.unlocked.entries ++ [(k, v)]).length : Int) ≤ s.unlocked.size
        simp only [List.length_append, List.length_cons, List.length_nil]
        push_cast
        omega
      · exact nodup_keysOf_append_one k v _ (nodup_keysOf_removeKV k _ h.nodupU)
          (not_mem_keysOf_removeKV k _)
      · intro j hj
        have hj2 : j ∈ keysOf (removeKV k s.unlocked.entries ++ [(k, v)]) := hj
        rw [mem_keysOf_append_one] at hj2
        rcases hj2 with hj2 | rfl
        · exact h.disj j ((mem_keysOf_removeKV j k _).mp hj2).1
        · exact h.disj j hk

theorem inv_Get (s : ThreadunsafeLLRU K V) (k : K) (h : Inv s) :
    Inv (Get s k).1 := by
  cases hg : lookupKV k s.locked with
  | some v =>
    rw [get_mem_locked s k v hg]
    exact h
  | none =>
    cases hu : lookupKV k s.unlocked.entries with
    | none =>
      rw [get_absent s k hg hu]
      exact h
    | some v =>
      rw [get_mem_unlocked s k v hg hu]
      have hk : k ∈ keysOf s.unlocked.entries := mem_keysOf_of_lookupKV k v _ hu
      have hulen := length_removeKV_add_one k s.unlocked.entries h.nodupU hk
      have hcle := h.count_le
      refine ⟨h.size_pos, h.usize_nonneg, h.cap_eq, ?_, ?_, h.nodupL, ?_⟩
      · show ((removeKV k s.unlocked.entries ++ [(k, v)]).length : Int) ≤ s.unlocked.size
        simp only [List.length_append, List.length_cons, List.length_nil]
        push_cast
        omega
      · exact nodup_keysOf_append_one k v _ (nodup_keysOf_removeKV k _ h.nodupU)
          (not_mem_keysOf_removeKV k _)
      · intro j hj
        have hj2 : j ∈ keysOf (removeKV k s.unlocked.entries ++ [(k, v)]) := hj
        rw [mem_keysOf_append_one] at hj2
        rcases hj2 with hj2 | rfl
        · exact h.disj j ((mem_keysOf_removeKV j k _).mp hj2).1
        · exact h.disj j hk

/-- Removing the oldest unlocked entry keeps the invariant; the state
with the tail of the unlocked pool is again a valid cache. -/
theorem inv_tail (s : ThreadunsafeLLRU K V) (p : K × V) (rest : List (K × V))
    (hes : s.unlocked.entries = p :: rest) (h : Inv s) :
    Inv (⟨⟨rest, s.unlocked.size⟩, s.locked, s.size⟩ : ThreadunsafeLLRU K V) := by
  have hrl : s.unlocked.entries.length = rest.length + 1 := by simp [hes]
  have hcle := h.count_le
  have hnd : (keysOf s.unlocked.entries).Nodup := h.nodupU
  rw [hes] at hnd
  refine ⟨h.size_pos, h.usize_nonneg, h.cap_eq, ?_, (List.nodup_cons.mp hnd).2, h.nodupL, ?_⟩
  · show ((rest.length : Int)) ≤ s.unlocked.size
    omega
  · intro j hj
    exact h.disj j (by rw [hes]; exact List.mem_cons_of_mem _ hj)

theorem inv_RemoveOldest (s : ThreadunsafeLLRU K V) (h : Inv s) :
    Inv (RemoveOldest s).1 := by
  cases hes : s.unlocked.entries with
  | nil =>
    rw [removeOldest_nil s hes]
    exact h
  | cons p rest =>
    rw [removeOldest_cons s p rest hes]
    exact inv_tail s p rest hes h

theorem inv_ReplaceOldestKey (s : ThreadunsafeLLRU K V) (k : K) (h : Inv s) :
    Inv (ReplaceOldestKey s k).1 := by
  by_cases hc : Contains s k = true
  · simp only [ReplaceOldestKey, hc, Bool.not_true]
    exact h
  · have hc2 : Contains s k = false := by
      cases hcc : Contains s k
      · rfl
      · exact absurd hcc hc
    cases hes : s.unlocked.entries with
    | nil =>
      simp only [ReplaceOldestKey, hc2, Bool.not_false, if_true, LRUCache.removeOldest, hes]
      exact h
    | cons p rest =>
      simp only [ReplaceOldestKey, hc2, Bool.not_false, if_true, LRUCache.removeOldest, hes]
      exact inv_AddOrUpdateUnlocked _ k p.2 (inv_tail s p rest hes h)

theorem inv_ReplaceOldestValue (s : ThreadunsafeLLRU K V) (v : V) (h : Inv s) :
    Inv (ReplaceOldestValue s v).1 := by
  cases hes : s.unlocked.entries with
  | nil =>
    simp only [ReplaceOldestValue, LRUCache.removeOldest, hes]
    exact h
  | cons p rest =>
    simp only [ReplaceOldestValue, LRUCache.removeOldest, hes]
    exact inv_AddOrUpdateUnlocked _ p.1 v (inv_tail s p rest hes h)

/-! ### Reachable states -/

/-- States produced from a freshly constructed cache by any sequence of
public state-changing operations (the read-only operations Contains, Len
and Values do not produce states). -/
inductive Reachable : ThreadunsafeLLRU K V → Prop where
  | init (size : Int) (s : ThreadunsafeLLRU K V) :
      NewUnsafe size = some s → Reachable s
  | addUnlocked (s : ThreadunsafeLLRU K V) (k : K) (v : V) :
      Reachable s → Reachable (AddOrUpdateUnlocked s k v).1
  | addLocked (s : ThreadunsafeLLRU K V) (k : K) (v : V) :
      Reachable s → Reachable (AddOrUpdateLocked s k v).1
  | lockStep (s : ThreadunsafeLLRU K V) (k : K) :
      Reachable s → Reachable (Lock s k).1
  | unlockStep (s : ThreadunsafeLLRU K V) (k : K) :
      Reachable s → Reachable (Unlock s k).1
  | getStep (s : ThreadunsafeLLRU K V) (k : K) :
      Reachable s → Reachable (Get s k).1
  | removeOldestStep (s : ThreadunsafeLLRU K V) :
      Reachable s → Reachable (RemoveOldest s).1
  | replaceOldestKeyStep (s : ThreadunsafeLLRU K V) (k : K) :
      Reachable s → Reachable (ReplaceOldestKey s k).1
  | replaceOldestValueStep (s : ThreadunsafeLLRU K V) (v : V) :
      Reachable s → Reachable (ReplaceOldestValue s v).1

/-- Every reachable cache state satisfies the data invariant. -/
theorem inv_of_reachable (s : ThreadunsafeLLRU K V) (h : Reachable s) : Inv s := by
  induction h with
  | init size s h => exact inv_NewUnsafe size s h
  | addUnlocked s k v _ ih => exact inv_AddOrUpdateUnlocked s k v ih
  | addLocked s k v _ ih => exact inv_AddOrUpdateLocked s k v ih
  | lockStep s k _ ih => exact inv_Lock s k ih
  | unlockStep s k _ ih => exact inv_Unlock s k ih
  | getStep s k _ ih => exact inv_Get s k ih
  | removeOldestStep s _ ih => exact inv_RemoveOldest s ih
  | replaceOldestKeyStep s k _ ih => exact inv_ReplaceOldestKey s k ih
  | replaceOldestValueStep s v _ ih => exact inv_ReplaceOldestValue s v ih

/-! ### Contains characterization and further lookup lemmas -/

theorem contains_eq_false_iff (s : ThreadunsafeLLRU K V) (k : K) :
    Contains s k = false ↔
      k ∉ keysOf s.unlocked.entries ∧ k ∉ keysOf s.locked := by
  rw [Contains, LRUCache.containsKey]
  cases h1 : containsKV k s.unlocked.entries with
  | true =>
    have := (containsKV_eq_true_iff k s.unlocked.entries).mp h1
    simp [this]
  | false =>
    have hU := (containsKV_eq_false_iff k s.unlocked.entries).mp h1
    cases h2 : lookupKV k s.locked with
    | none =>
      have := (lookupKV_eq_none_iff k s.locked).mp h2
      simp [hU, this]
    | some v =>
      have := mem_keysOf_of_lookupKV k v _ h2
      simp [hU, this]

theorem contains_eq_true_of_mem_unlocked (s : ThreadunsafeLLRU K V) (k : K)
    (h : k ∈ keysOf s.unlocked.entries) : Contains s k = true := by
  rw [Contains, LRUCache.containsKey, if_pos ((containsKV_eq_true_iff k _).mpr h)]

theorem lookupKV_append_one_ne (j k : K) (v : V) (es : List (K × V))
    (hne : j ≠ k) : lookupKV j (es ++ [(k, v)]) = lookupKV j es := by
  rw [lookupKV_append]
  cases h : lookupKV j es with
  | some w => rfl
  | none =>
    have hkj : ¬ k = j := fun he => hne he.symm
    simp [lookupKV_cons, hkj]

/-! ### The claims -/

/-- C1: in every reachable cache state, the locked count plus the
unlocked pool's capacity bound equals the total capacity fixed at
construction, and the locked count plus the unlocked count is at most
that capacity. -/
theorem C1_capacity_invariant (s : ThreadunsafeLLRU K V) (h : Reachable s) :
    (s.locked.length : Int) + s.unlocked.size = s.size ∧
    (s.locked.length : Int) + s.unlocked.entries.length ≤ s.size := by
  have hi := inv_of_reachable s h
  refine ⟨hi.cap_eq, ?_⟩
  have h1 := hi.count_le
  have h2 := hi.cap_eq
  omega

/-- Witness for C1 at a concrete reachable state (capacity 2, one
unlocked insert). -/
theorem C1_capacity_invariant_witness :
    ((AddOrUpdateUnlocked (⟨⟨[], 2⟩, [], 2⟩ : ThreadunsafeLLRU Nat Nat) 1 7).1.locked.length : Int) +
        (AddOrUpdateUnlocked (⟨⟨[], 2⟩, [], 2⟩ : ThreadunsafeLLRU Nat Nat) 1 7).1.unlocked.size =
        (AddOrUpdateUnlocked (⟨⟨[], 2⟩, [], 2⟩ : ThreadunsafeLLRU Nat Nat) 1 7).1.size ∧
    ((AddOrUpdateUnlocked (⟨⟨[], 2⟩, [], 2⟩ : ThreadunsafeLLRU Nat Nat) 1 7).1.locked.length : Int) +
        (AddOrUpdateUnlocked (⟨⟨[], 2⟩, [], 2⟩ : ThreadunsafeLLRU Nat Nat) 1 7).1.unlocked.entries.length ≤
        (AddOrUpdateUnlocked (⟨⟨[], 2⟩, [], 2⟩ : ThreadunsafeLLRU Nat Nat) 1 7).1.size :=
  C1_capacity_invariant _
    (Reachable.addUnlocked _ 1 7 (Reachable.init 2 _ rfl))

/-- C2: in every reachable cache state no key is simultaneously a member
of the unlocked pool and the locked pool. -/
theorem C2_pools_disjoint (s : ThreadunsafeLLRU K V) (h : Reachable s) (k : K) :
    ¬ (k ∈ keysOf s.unlocked.entries ∧ k ∈ keysOf s.locked) := by
  have hi := inv_of_reachable s h
  rintro ⟨hU, hL⟩
  exact hi.disj k hU hL

/-- Witness for C2 at a concrete reachable state (unlocked insert then
locked insert of different keys). -/
theorem C2_pools_disjoint_witness :
    ¬ ((1 : Nat) ∈ keysOf (AddOrUpdateLocked (AddOrUpdateUnlocked
          (⟨⟨[], 2⟩, [], 2⟩ : ThreadunsafeLLRU Nat Nat) 1 7).1 2 8).1.unlocked.entries ∧
       (1 : Nat) ∈ keysOf (AddOrUpdateLocked (AddOrUpdateUnlocked
          (⟨⟨[], 2⟩, [], 2⟩ : ThreadunsafeLLRU Nat Nat) 1 7).1 2 8).1.locked) :=
  C2_pools_disjoint _
    (Reachable.addLocked _ 2 8 (Reachable.addUnlocked _ 1 7 (Reachable.init 2 _ rfl))) 1

/-- C3: when the capacity is entirely consumed by locked entries and the
key is absent from the cache, both add operations return `(false, nil)`
and leave the state unchanged. -/
theorem C3_full_locked_add_fails (s : ThreadunsafeLLRU K V) (k : K) (v : V)
    (h : Inv s) (hfull : (s.locked.length : Int) = s.size)
    (habs : Contains s k = false) :
    AddOrUpdateUnlocked s k v = (s, false, none) ∧
    AddOrUpdateLocked s k v = (s, false, none) := by
  obtain ⟨hkU, hkL⟩ := (contains_eq_false_iff s k).mp habs
  have husz : s.unlocked.size = 0 := by
    have := h.cap_eq
    omega
  exact ⟨addU_noRoom s k v h husz hkL, addL_noRoom s k v h husz hkL⟩

/-- Witness for C3: capacity 1 with locked entry a=1; adding b=2 either
way returns `(false, nil)` with the cache unchanged. -/
theorem C3_full_locked_add_fails_witness :
    AddOrUpdateUnlocked (⟨⟨[], 0⟩, [("a", 1)], 1⟩ : ThreadunsafeLLRU String Nat) "b" 2 =
      (⟨⟨[], 0⟩, [("a", 1)], 1⟩, false, none) ∧
    AddOrUpdateLocked (⟨⟨[], 0⟩, [("a", 1)], 1⟩ : ThreadunsafeLLRU String Nat) "b" 2 =
      (⟨⟨[], 0⟩, [("a", 1)], 1⟩, false, none) :=
  C3_full_locked_add_fails _ "b" 2
    ⟨by decide, by decide, by decide, by decide, by decide, by decide,
     by intro j hj; simp at hj⟩
    (by decide) (by decide)

/-- If AddOrUpdateUnlocked reports an evicted entry, that entry is the
least recently touched unlocked entry of the pre-state, and its key was
not a locked key. -/
theorem addU_evicted_is_oldest (s : ThreadunsafeLLRU K V) (k : K) (v : V)
    (s' : ThreadunsafeLLRU K V) (ok : Bool) (e : Entry K V) (h : Inv s)
    (heq : AddOrUpdateUnlocked s k v = (s', ok, some e)) :
    s.unlocked.entries.head? = some (e.Key, e.Value) ∧ e.Key ∉ keysOf s.locked := by
  by_cases hkU : k ∈ keysOf s.unlocked.entries
  · rw [addU_mem_unlocked s k v h hkU] at heq
    simp at heq
  · by_cases hkL : k ∈ keysOf s.locked
    · rw [addU_mem_locked s k v h hkU hkL] at heq
      simp at heq
    · by_cases hfit : (s.unlocked.entries.length : Int) + 1 ≤ s.unlocked.size
      · rw [addU_fresh_noevict s k v h hkU hkL hfit] at heq
        simp at heq
      · by_cases husz : s.unlocked.size = 0
        · rw [addU_noRoom s k v h husz hkL] at heq
          simp at heq
        · have hfull : (s.unlocked.entries.length : Int) = s.unlocked.size := by
            have := h.count_le
            omega
          have hpos : 1 ≤ s.unlocked.entries.length := by
            have := h.usize_nonneg
            omega
          cases hes : s.unlocked.entries with
          | nil => rw [hes] at hpos; simp at hpos
          | cons p rest =>
            rw [addU_fresh_evict s k v h hkU hkL p rest hes hfull] at heq
            simp only [Prod.mk.injEq, Option.some.injEq] at heq
            obtain ⟨h1, h2, h3⟩ := heq
            subst h3
            constructor
            · rfl
            · exact h.disj p.1 (by rw [hes]; simp)

/-- If AddOrUpdateLocked reports an evicted entry, that entry is the
least recently touched unlocked entry of the pre-state, and its key was
not a locked key. -/
theorem addL_evicted_is_oldest (s : ThreadunsafeLLRU K V) (k : K) (v : V)
    (s' : ThreadunsafeLLRU K V) (ok : Bool) (e : Entry K V) (h : Inv s)
    (heq : AddOrUpdateLocked s k v = (s', ok, some e)) :
    s.unlocked.entries.head? = some (e.Key, e.Value) ∧ e.Key ∉ keysOf s.locked := by
  by_cases hkU : k ∈ keysOf s.unlocked.entries
  · rw [addL_mem_unlocked s k v h hkU] at heq
    simp at heq
  · by_cases hkL : k ∈ keysOf s.locked
    · rw [addL_mem_locked s k v h hkU hkL] at heq
      simp at heq
    · by_cases hfit : (s.unlocked.entries.length : Int) + 1 ≤ s.unlocked.size
      · rw [addL_fresh_noevict s k v h hkU hkL hfit] at heq
        simp at heq
      · by_cases husz : s.unlocked.size = 0
        · rw [addL_noRoom s k v h husz hkL] at heq
          simp at heq
        · have hfull : (s.unlocked.entries.length : Int) = s.unlocked.size := by
            have := h.count_le
            omega
          have hpos : 1 ≤ s.unlocked.entries.length := by
            have := h.usize_nonneg
            omega
          cases hes : s.unlocked.entries with
          | nil => rw [hes] at hpos; simp at hpos
          | cons p rest =>
            rw [addL_fresh_evict s k v h hkU hkL p rest hes hfull] at heq
            simp only [Prod.mk.injEq, Option.some.injEq] at heq
            obtain ⟨h1, h2, h3⟩ := heq
            subst h3
            constructor
            · rfl
            · exact h.disj p.1 (by rw [hes]; simp)

/-- Three unlocked adds with distinct keys on a fresh cache of capacity
two: the third add evicts and returns the first entry. -/
theorem tripleAdd_evicts_first (k1 k2 k3 : K) (v1 v2 v3 : V)
    (h12 : k1 ≠ k2) (h13 : k1 ≠ k3) (h23 : k2 ≠ k3) :
    (AddOrUpdateUnlocked (AddOrUpdateUnlocked (AddOrUpdateUnlocked
        (⟨⟨[], 2⟩, [], 2⟩ : ThreadunsafeLLRU K V) k1 v1).1 k2 v2).1 k3 v3).2 =
      (true, some ⟨k1, v1⟩) := by
  have inv0 : Inv (⟨⟨[], 2⟩, [], 2⟩ : ThreadunsafeLLRU K V) :=
    ⟨by norm_num, by norm_num, by simp, by simp, by simp, by simp,
     by intro j hj; simp at hj⟩
  have e1 := addU_fresh_noevict (⟨⟨[], 2⟩, [], 2⟩ : ThreadunsafeLLRU K V) k1 v1 inv0
    (by simp) (by simp) (by norm_num)
  rw [e1]
  simp only [List.nil_append]
  have inv1 : Inv (⟨⟨[(k1, v1)], 2⟩, [], 2⟩ : ThreadunsafeLLRU K V) :=
    ⟨by norm_num, by norm_num, by simp, by simp [keysOf], by simp, by simp,
     by intro j hj hm; simp at hm⟩
  have e2 := addU_fresh_noevict (⟨⟨[(k1, v1)], 2⟩, [], 2⟩ : ThreadunsafeLLRU K V) k2 v2 inv1
    (by intro hm; simp [keysOf] at hm; exact h12 hm.symm) (by simp) (by norm_num)
  rw [e2]
  simp only [List.cons_append, List.nil_append]
  have inv2 : Inv (⟨⟨[(k1, v1), (k2, v2)], 2⟩, [], 2⟩ : ThreadunsafeLLRU K V) :=
    ⟨by norm_num, by norm_num, by simp, by simp [keysOf], by simp [keysOf, h12],
     by simp, by intro j hj hm; simp at hm⟩
  have e3 := addU_fresh_evict (⟨⟨[(k1, v1), (k2, v2)], 2⟩, [], 2⟩ : ThreadunsafeLLRU K V)
    k3 v3 inv2
    (by
      intro hm
      simp [keysOf] at hm
      rcases hm with hm | hm
      · exact h13 hm.symm
      · exact h23 hm.symm)
    (by simp) (k1, v1) [(k2, v2)] rfl (by norm_num)
  rw [e3]

/-- C4: whenever an add operation evicts, the single evicted entry is the
least recently touched unlocked entry of the pre-state and locked entries
are never candidates; and on a fresh cache of capacity two, three
unlocked adds with distinct keys make the third call return the first
entry. -/
theorem C4_eviction_oldest :
    (∀ (s : ThreadunsafeLLRU K V) (k : K) (v : V) (s' : ThreadunsafeLLRU K V)
        (ok : Bool) (e : Entry K V), Inv s →
        AddOrUpdateUnlocked s k v = (s', ok, some e) →
        s.unlocked.entries.head? = some (e.Key, e.Value) ∧ e.Key ∉ keysOf s.locked) ∧
    (∀ (s : ThreadunsafeLLRU K V) (k : K) (v : V) (s' : ThreadunsafeLLRU K V)
        (ok : Bool) (e : Entry K V), Inv s →
        AddOrUpdateLocked s k v = (s', ok, some e) →
        s.unlocked.entries.head? = some (e.Key, e.Value) ∧ e.Key ∉ keysOf s.locked) ∧
    (∀ (k1 k2 k3 : K) (v1 v2 v3 : V), k1 ≠ k2 → k1 ≠ k3 → k2 ≠ k3 →
        (AddOrUpdateUnlocked (AddOrUpdateUnlocked (AddOrUpdateUnlocked
            (⟨⟨[], 2⟩, [], 2⟩ : ThreadunsafeLLRU K V) k1 v1).1 k2 v2).1 k3 v3).2 =
          (true, some ⟨k1, v1⟩)) := by
  refine ⟨?_, ?_, ?_⟩
  · intro s k v s' ok e h heq
    exact addU_evicted_is_oldest s k v s' ok e h heq
  · intro s k v s' ok e h heq
    exact addL_evicted_is_oldest s k v s' ok e h heq
  · intro k1 k2 k3 v1 v2 v3 h12 h13 h23
    exact tripleAdd_evicts_first k1 k2 k3 v1 v2 v3 h12 h13 h23

/-- Witness for C4 at concrete keys and values. -/
theorem C4_eviction_oldest_witness :
    (AddOrUpdateUnlocked (AddOrUpdateUnlocked (AddOrUpdateUnlocked
        (⟨⟨[], 2⟩, [], 2⟩ : ThreadunsafeLLRU Nat Nat) 0 10).1 1 20).1 2 30).2 =
      (true, some ⟨0, 10⟩) :=
  (@C4_eviction_oldest Nat Nat _ _ _).2.2 0 1 2 10 20 30
    (by decide) (by decide) (by decide)

/-- C5: Lock on an unlocked key moves it to the locked pool (removed
from unlocked, appended to locked, unlocked bound shrunk by one) and
returns true; Lock on a locked key returns true without any change; Lock
on an absent key returns false without any change. -/
theorem C5_lock_cases (s : ThreadunsafeLLRU K V) (k : K) (h : Inv s) :
    (∀ v, lookupKV k s.unlocked.entries = some v →
        Lock s k = (⟨⟨removeKV k s.unlocked.entries, s.unlocked.size - 1⟩,
          s.locked ++ [(k, v)], s.size⟩, true)) ∧
    (lookupKV k s.unlocked.entries = none → k ∈ keysOf s.locked →
        Lock s k = (s, true)) ∧
    (lookupKV k s.unlocked.entries = none → k ∉ keysOf s.locked →
        Lock s k = (s, false)) :=
  ⟨fun v hv => lock_mem_unlocked s k v h hv,
   fun hn hm => lock_mem_locked s k hn hm,
   fun hn hm => lock_absent s k hn hm⟩

/-- Witness for C5: locking the only (unlocked) key of a capacity-2 cache. -/
theorem C5_lock_cases_witness :
    Lock (⟨⟨[("a", 1)], 2⟩, [], 2⟩ : ThreadunsafeLLRU String Nat) "a" =
      (⟨⟨removeKV "a" [("a", 1)], 2 - 1⟩, [] ++ [("a", 1)], 2⟩, true) :=
  (C5_lock_cases (⟨⟨[("a", 1)], 2⟩, [], 2⟩ : ThreadunsafeLLRU String Nat) "a"
    ⟨by decide, by decide, by decide, by decide, by decide, by decide,
     by intro j hj; simp⟩).1 1 (by decide)

/-- C6: Unlock on a locked key removes it from the locked pool, grows the
unlocked bound by one before inserting (so nothing else is evicted), and
appends the key as most recent; Unlock on an unlocked key promotes it to
most recent; Unlock on an absent key returns false. -/
theorem C6_unlock_cases (s : ThreadunsafeLLRU K V) (k : K) (h : Inv s) :
    (∀ v, lookupKV k s.locked = some v →
        Unlock s k = (⟨⟨s.unlocked.entries ++ [(k, v)], s.unlocked.size + 1⟩,
          removeKV k s.locked, s.size⟩, true)) ∧
    (∀ v, lookupKV k s.locked = none → lookupKV k s.unlocked.entries = some v →
        Unlock s k = (⟨⟨removeKV k s.unlocked.entries ++ [(k, v)], s.unlocked.size⟩,
          s.locked, s.size⟩, true)) ∧
    (lookupKV k s.locked = none → lookupKV k s.unlocked.entries = none →
        Unlock s k = (s, false)) :=
  ⟨fun v hv => unlock_mem_locked s k v h hv,
   fun v hn hv => unlock_mem_unlocked s k v hn hv,
   fun hn hu => unlock_absent s k hn hu⟩

/-- Witness for C6: unlocking the only (locked) key of a capacity-2 cache. -/
theorem C6_unlock_cases_witness :
    Unlock (⟨⟨[], 1⟩, [("a", 1)], 2⟩ : ThreadunsafeLLRU String Nat) "a" =
      (⟨⟨[] ++ [("a", 1)], 1 + 1⟩, removeKV "a" [("a", 1)], 2⟩, true) :=
  (C6_unlock_cases (⟨⟨[], 1⟩, [("a", 1)], 2⟩ : ThreadunsafeLLRU String Nat) "a"
    ⟨by decide, by decide, by decide, by decide, by decide, by decide,
     by intro j hj; simp at hj⟩).1 1 (by decide)

/-- C7: Get on a locked key returns the value with no state change at
all; Get on an unlocked key returns the value and promotes the entry to
most recent, with the total number of entries unchanged; Get on an absent
key returns nothing and changes nothing. -/
theorem C7_get_cases (s : ThreadunsafeLLRU K V) (k : K) (h : Inv s) :
    (∀ v, lookupKV k s.locked = some v → Get s k = (s, some v)) ∧
    (∀ v, lookupKV k s.locked = none → lookupKV k s.unlocked.entries = some v →
        Get s k = (⟨⟨removeKV k s.unlocked.entries ++ [(k, v)], s.unlocked.size⟩,
          s.locked, s.size⟩, some v) ∧
        Len (Get s k).1 = Len s) ∧
    (lookupKV k s.locked = none → lookupKV k s.unlocked.entries = none →
        Get s k = (s, none)) := by
  refine ⟨fun v hv => get_mem_locked s k v hv, ?_, fun hn hu => get_absent s k hn hu⟩
  intro v hn hv
  refine ⟨get_mem_unlocked s k v hn hv, ?_⟩
  have hk : k ∈ keysOf s.unlocked.entries := mem_keysOf_of_lookupKV k v _ hv
  have hlen := length_removeKV_add_one k s.unlocked.entries h.nodupU hk
  rw [get_mem_unlocked s k v hn hv]
  show s.locked.length + (removeKV k s.unlocked.entries ++ [(k, v)]).length =
    s.locked.length + s.unlocked.entries.length
  simp only [List.length_append, List.length_cons, List.length_nil]
  omega

/-- Witness for C7: getting a locked key returns the value untouched. -/
theorem C7_get_cases_witness :
    Get (⟨⟨[], 1⟩, [("a", 1)], 2⟩ : ThreadunsafeLLRU String Nat) "a" =
      ((⟨⟨[], 1⟩, [("a", 1)], 2⟩ : ThreadunsafeLLRU String Nat), some 1) :=
  (C7_get_cases (⟨⟨[], 1⟩, [("a", 1)], 2⟩ : ThreadunsafeLLRU String Nat) "a"
    ⟨by decide, by decide, by decide, by decide, by decide, by decide,
     by intro j hj; simp at hj⟩).1 1 (by decide)

/-- C10: in an invariant state, Lock on an unlocked key never evicts:
the total number of entries is preserved, the locked value is the old
unlocked value, the other unlocked entries keep their relative order, and
every key other than the locked one keeps its pool and value. -/
theorem C10_lock_frame (s : ThreadunsafeLLRU K V) (k : K) (v : V) (h : Inv s)
    (hv : lookupKV k s.unlocked.entries = some v) :
    ∃ s', Lock s k = (s', true) ∧
      Len s' = Len s ∧
      s'.unlocked.entries = removeKV k s.unlocked.entries ∧
      s'.locked = s.locked ++ [(k, v)] ∧
      s'.size = s.size ∧
      lookupKV k s'.locked = some v ∧
      (∀ j, j ≠ k → lookupKV j s'.unlocked.entries = lookupKV j s.unlocked.entries) ∧
      (∀ j, j ≠ k → lookupKV j s'.locked = lookupKV j s.locked) := by
  have hk : k ∈ keysOf s.unlocked.entries := mem_keysOf_of_lookupKV k v _ hv
  have hkL : k ∉ keysOf s.locked := h.disj k hk
  have hlen := length_removeKV_add_one k s.unlocked.entries h.nodupU hk
  refine ⟨_, lock_mem_unlocked s k v h hv, ?_, rfl, rfl, rfl, ?_, ?_, ?_⟩
  · show (s.locked ++ [(k, v)]).length + (removeKV k s.unlocked.entries).length =
      s.locked.length + s.unlocked.entries.length
    simp only [List.length_append, List.length_cons, List.length_nil]
    omega
  · exact lookupKV_append_one_self k v s.locked hkL
  · intro j hne
    show lookupKV j (removeKV k s.unlocked.entries) = lookupKV j s.unlocked.entries
    rw [lookupKV_removeKV, if_neg hne]
  · intro j hne
    exact lookupKV_append_one_ne j k v s.locked hne

/-- Witness for C10: locking the only (unlocked) key of a capacity-2
cache evicts nothing. -/
theorem C10_lock_frame_witness :
    ∃ s', Lock (⟨⟨[("a", 1)], 2⟩, [], 2⟩ : ThreadunsafeLLRU String Nat) "a" = (s', true) ∧
      Len s' = Len (⟨⟨[("a", 1)], 2⟩, [], 2⟩ : ThreadunsafeLLRU String Nat) ∧
      s'.unlocked.entries = removeKV "a" [("a", 1)] ∧
      s'.locked = [] ++ [("a", 1)] ∧
      s'.size = 2 ∧
      lookupKV "a" s'.locked = some 1 ∧
      (∀ j, j ≠ "a" → lookupKV j s'.unlocked.entries = lookupKV j [("a", 1)]) ∧
      (∀ j, j ≠ "a" → lookupKV j s'.locked = lookupKV j ([] : List (String × Nat))) :=
  C10_lock_frame (⟨⟨[("a", 1)], 2⟩, [], 2⟩ : ThreadunsafeLLRU String Nat) "a" 1
    ⟨by decide, by decide, by decide, by decide, by decide, by decide,
     by intro j hj; simp⟩ (by decide)

/-- C8: ReplaceOldestKey fails with `(nil, nil, false)` and leaves the
cache unchanged when newKey exists in either pool or the unlocked pool is
empty; otherwise it removes the oldest unlocked entry and re-inserts its
value under newKey as most recent, returning the value, the displaced
key, and true. -/
theorem C8_replaceOldestKey_cases (s : ThreadunsafeLLRU K V) (newKey : K) (h : Inv s) :
    (Contains s newKey = true → ReplaceOldestKey s newKey = (s, none, none, false)) ∧
    (s.unlocked.entries = [] → ReplaceOldestKey s newKey = (s, none, none, false)) ∧
    (∀ oldKey oldVal rest, Contains s newKey = false →
        s.unlocked.entries = (oldKey, oldVal) :: rest →
        ReplaceOldestKey s newKey =
          (⟨⟨rest ++ [(newKey, oldVal)], s.unlocked.size⟩, s.locked, s.size⟩,
           some oldVal, some oldKey, true)) := by
  refine ⟨?_, ?_, ?_⟩
  · intro hc
    simp [ReplaceOldestKey, hc]
  · intro hes
    by_cases hc : Contains s newKey = true
    · simp [ReplaceOldestKey, hc]
    · have hc2 : Contains s newKey = false := by
        cases hcc : Contains s newKey
        · rfl
        · exact absurd hcc hc
      simp [ReplaceOldestKey, hc2, LRUCache.removeOldest, hes]
  · intro oldKey oldVal rest hc hes
    obtain ⟨hkU, hkL⟩ := (contains_eq_false_iff s newKey).mp hc
    have hinv1 : Inv (⟨⟨rest, s.unlocked.size⟩, s.locked, s.size⟩ : ThreadunsafeLLRU K V) :=
      inv_tail s (oldKey, oldVal) rest hes h
    have hkU1 : newKey ∉ keysOf rest := by
      intro hm
      exact hkU (by rw [hes]; exact List.mem_cons_of_mem _ hm)
    have hrl : s.unlocked.entries.length = rest.length + 1 := by simp [hes]
    have hfit : ((rest.length : Int)) + 1 ≤ s.unlocked.size := by
      have hcl := h.count_le
      omega
    have e1 := addU_fresh_noevict
      (⟨⟨rest, s.unlocked.size⟩, s.locked, s.size⟩ : ThreadunsafeLLRU K V)
      newKey oldVal hinv1 hkU1 hkL hfit
    simp only [ReplaceOldestKey, hc, Bool.not_false, if_true, LRUCache.removeOldest, hes]
    rw [e1]

/-- Witness for C8: a fully locked capacity-1 cache rejects the
replacement with a fresh key. -/
theorem C8_replaceOldestKey_cases_witness :
    ReplaceOldestKey (⟨⟨[], 0⟩, [("a", 1)], 1⟩ : ThreadunsafeLLRU String Nat) "b" =
      ((⟨⟨[], 0⟩, [("a", 1)], 1⟩ : ThreadunsafeLLRU String Nat), none, none, false) :=
  (C8_replaceOldestKey_cases (⟨⟨[], 0⟩, [("a", 1)], 1⟩ : ThreadunsafeLLRU String Nat) "b"
    ⟨by decide, by decide, by decide, by decide, by decide, by decide,
     by intro j hj; simp at hj⟩).2.1 rfl

/-- C9: Values is exactly the unlocked values ordered least to most
recently touched followed by the locked values in insertion order; it is
a pure function of the state (it cannot modify the cache). The second
part exercises the order on a concrete run where a Get reorders the
unlocked pool. -/
theorem C9_values_order :
    (∀ s : ThreadunsafeLLRU K V,
        Values s = s.unlocked.entries.map Prod.snd ++ s.locked.map Prod.snd) ∧
    (∀ (k1 k2 k3 : K) (v1 v2 v3 : V), k1 ≠ k2 → k1 ≠ k3 → k2 ≠ k3 →
        Values (Get (AddOrUpdateLocked (AddOrUpdateUnlocked (AddOrUpdateUnlocked
            (⟨⟨[], 3⟩, [], 3⟩ : ThreadunsafeLLRU K V) k1 v1).1 k2 v2).1 k3 v3).1 k1).1 =
          [v2, v1, v3]) := by
  refine ⟨fun s => rfl, ?_⟩
  intro k1 k2 k3 v1 v2 v3 h12 h13 h23
  have inv0 : Inv (⟨⟨[], 3⟩, [], 3⟩ : ThreadunsafeLLRU K V) :=
    ⟨by norm_num, by norm_num, by simp, by simp, by simp, by simp,
     by intro j hj; simp at hj⟩
  have e1 := addU_fresh_noevict (⟨⟨[], 3⟩, [], 3⟩ : ThreadunsafeLLRU K V) k1 v1 inv0
    (by simp) (by simp) (by norm_num)
  rw [e1]
  simp only [List.nil_append]
  have inv1 : Inv (⟨⟨[(k1, v1)], 3⟩, [], 3⟩ : ThreadunsafeLLRU K V) :=
    ⟨by norm_num, by norm_num, by simp, by simp [keysOf], by simp, by simp,
     by intro j hj hm; simp at hm⟩
  have e2 := addU_fresh_noevict (⟨⟨[(k1, v1)], 3⟩, [], 3⟩ : ThreadunsafeLLRU K V) k2 v2 inv1
    (by intro hm; simp [keysOf] at hm; exact h12 hm.symm) (by simp) (by norm_num)
  rw [e2]
  simp only [List.cons_append, List.nil_append]
  have inv2 : Inv (⟨⟨[(k1, v1), (k2, v2)], 3⟩, [], 3⟩ : ThreadunsafeLLRU K V) :=
    ⟨by norm_num, by norm_num, by simp, by simp [keysOf], by simp [keysOf, h12],
     by simp, by intro j hj hm; simp at hm⟩
  have e3 := addL_fresh_noevict (⟨⟨[(k1, v1), (k2, v2)], 3⟩, [], 3⟩ : ThreadunsafeLLRU K V)
    k3 v3 inv2
    (by
      intro hm
      simp [keysOf] at hm
      rcases hm with hm | hm
      · exact h13 hm.symm
      · exact h23 hm.symm)
    (by simp) (by norm_num)
  rw [e3]
  simp only [List.nil_append]
  have e4 := get_mem_unlocked
    (⟨⟨[(k1, v1), (k2, v2)], 3 - 1⟩, [(k3, v3)], 3⟩ : ThreadunsafeLLRU K V) k1 v1
    (by
      have hne : ¬ k3 = k1 := fun he => h13 he.symm
      simp [lookupKV_cons, hne])
    (by simp [lookupKV_cons])
  rw [e4]
  have hne21 : ¬ k2 = k1 := fun he => h12 he.symm
  show Values (⟨⟨removeKV k1 [(k1, v1), (k2, v2)] ++ [(k1, v1)], 3 - 1⟩,
      [(k3, v3)], 3⟩ : ThreadunsafeLLRU K V) = [v2, v1, v3]
  simp [Values, LRUCache.values, collectValues, removeKV_cons, hne21]

/-- Witness for C9 at concrete keys and values. -/
theorem C9_values_order_witness :
    Values (Get (AddOrUpdateLocked (AddOrUpdateUnlocked (AddOrUpdateUnlocked
        (⟨⟨[], 3⟩, [], 3⟩ : ThreadunsafeLLRU Nat Nat) 0 10).1 1 20).1 2 30).1 0).1 =
      [20, 10, 30] :=
  (@C9_values_order Nat Nat _ _ _).2 0 1 2 10 20 30 (by decide) (by decide) (by decide)

end LLRU
